import Mathlib

/-!
# Slice buffer (src/core/support/slice_buffer.c)

A shallow embedding of the slice buffer of gRPC core support and the properties
its specification states about it.

Modelling conventions.

* `size_t` and `unsigned` quantities (count, capacity, length, byte counts) are
  natural numbers; they count array slots and bytes of one logical stream, and
  the sizes of one buffer are taken to fit `size_t`, so the arithmetic of the
  source on them is the arithmetic of the natural numbers.
* Memory reached through a pointer (the backing array `sb->slices`, the inline
  byte array of a slice, the array handed to `addn`) is a total function from
  the index to the cell content.  Cells that the C code never wrote keep the
  value the function had at the start: this is how indeterminate (freshly
  allocated or stale) memory is represented, and `gpr_realloc` therefore keeps
  the function as it is.
* `GPR_ASSERT` aborts the process when its condition is false; operations that
  contain it return an `Option`, with `none` for the abort.
* The inline capacity `GPR_SLICE_INLINED_SIZE` (also the value of
  `sizeof(back->data.inlined.bytes)`) is declared outside this source file and
  is the parameter `N` of the operations that use it.
-/

namespace SliceBuffer

/-! ## The embedding -/

/-- A byte (`gpr_uint8`); the buffer only copies bytes. -/
abbrev gpr_uint8 := Nat

/-- Modelled from the spec: the slice type `gpr_slice` is declared in a header that is
not part of this source file.  The fields are the members the source file accesses:
`refcount` (0 is the NULL pointer, any other value identifies the shared control block),
the members of `data.refcounted` (the viewed bytes and the length of the view) and the
members of `data.inlined` (length and the inline byte array).  The two members of the
union are kept side by side; which one is live is decided by `refcount`, as in the
source. -/
structure gpr_slice where
  refcount : Nat
  refcounted_bytes : Nat → gpr_uint8
  refcounted_length : Nat
  inlined_length : Nat
  inlined_bytes : Nat → gpr_uint8

/-- Modelled from the spec: the macro `GPR_SLICE_LENGTH` of the slice header, the length
of the live member of the union. -/
def GPR_SLICE_LENGTH (s : gpr_slice) : Nat :=
  if s.refcount ≠ 0 then s.refcounted_length else s.inlined_length

/-- The first `n` cells of a byte array, as a list. -/
def bytes_upto (p : Nat → gpr_uint8) (n : Nat) : List gpr_uint8 :=
  (List.range n).map p

/-- The bytes a slice stands for: the first `GPR_SLICE_LENGTH` bytes of its live member. -/
def slice_bytes (s : gpr_slice) : List gpr_uint8 :=
  if s.refcount ≠ 0 then bytes_upto s.refcounted_bytes s.refcounted_length
  else bytes_upto s.inlined_bytes s.inlined_length

/-- The call `memcpy(dst + off, src + soff, n)`: cells `off .. off+n-1` of `dst` receive
cells `soff .. soff+n-1` of `src`, the other cells of `dst` are untouched. -/
def memcpy (dst : Nat → gpr_uint8) (off : Nat) (src : Nat → gpr_uint8) (soff n : Nat) :
    Nat → gpr_uint8 :=
  fun i => if off ≤ i ∧ i < off + n then src (soff + (i - off)) else dst i

/-- The assignment `slices[i] = v` on the backing array. -/
def store (slices : Nat → gpr_slice) (i : Nat) (v : gpr_slice) : Nat → gpr_slice :=
  fun j => if j = i then v else slices j

/-- The struct `gpr_slice_buffer`: backing array, number of held slices, number of
allocated slots, cached total length. -/
structure gpr_slice_buffer where
  slices : Nat → gpr_slice
  count : Nat
  capacity : Nat
  length : Nat

/-- The initial allocation size (number of slices). -/
def INITIAL_CAPACITY : Nat := 4

/-- The macro `GROW(x) = 3 * (x) / 2`. -/
def GROW (x : Nat) : Nat := 3 * x / 2

/-- The function `gpr_slice_buffer_init`; `mem` is the (indeterminate) content of the
memory that `gpr_malloc` and later `gpr_realloc` hand out. -/
def gpr_slice_buffer_init (mem : Nat → gpr_slice) : gpr_slice_buffer :=
  { slices := mem, count := 0, capacity := INITIAL_CAPACITY, length := 0 }

/-- The growth block that stands before each of the three places where a new slot is
taken (in `tiny_add`, `add_indexed` and `add`):
`if (count == capacity) { capacity = GROW(capacity); GPR_ASSERT(capacity > count); realloc }`.
The result is `none` when the assertion fails. -/
def grow_if_full (sb : gpr_slice_buffer) : Option gpr_slice_buffer :=
  if sb.count = sb.capacity then
    if GROW sb.capacity > sb.count then some { sb with capacity := GROW sb.capacity }
    else none
  else some sb

/-- The label `add_new` of `gpr_slice_buffer_tiny_add`: take slot `count` as a new inline
slice of length `n` (its bytes are whatever the slot held) and return the start of its
inline bytes, as the pair (slot, offset). -/
def tiny_add_new (sb : gpr_slice_buffer) (n : Nat) : Option (gpr_slice_buffer × (Nat × Nat)) :=
  match grow_if_full sb with
  | none => none
  | some sb1 =>
    let back := sb1.slices sb1.count
    some ({ sb1 with
              slices := store sb1.slices sb1.count { back with refcount := 0, inlined_length := n }
              count := sb1.count + 1 },
          (sb1.count, 0))

/-- The function `gpr_slice_buffer_tiny_add`.  The returned pointer into the inline bytes
of a slot is the pair (slot index, byte offset). -/
def gpr_slice_buffer_tiny_add (N : Nat) (sb : gpr_slice_buffer) (n : Nat) :
    Option (gpr_slice_buffer × (Nat × Nat)) :=
  let sb0 := { sb with length := sb.length + n }
  if sb0.count = 0 then tiny_add_new sb0 n
  else
    let back := sb0.slices (sb0.count - 1)
    if back.refcount ≠ 0 then tiny_add_new sb0 n
    else if back.inlined_length + n > N then tiny_add_new sb0 n
    else
      some ({ sb0 with
                slices := store sb0.slices (sb0.count - 1)
                  { back with inlined_length := back.inlined_length + n } },
            (sb0.count - 1, back.inlined_length))

/-- The function `gpr_slice_buffer_add_indexed`: the new state and the returned index. -/
def gpr_slice_buffer_add_indexed (sb : gpr_slice_buffer) (s : gpr_slice) :
    Option (gpr_slice_buffer × Nat) :=
  let out := sb.count
  match grow_if_full sb with
  | none => none
  | some sb1 =>
    some ({ sb1 with
              slices := store sb1.slices out s
              length := sb1.length + GPR_SLICE_LENGTH s
              count := out + 1 },
          out)

/-- The function `gpr_slice_buffer_add`. -/
def gpr_slice_buffer_add (N : Nat) (sb : gpr_slice_buffer) (s : gpr_slice) :
    Option gpr_slice_buffer :=
  let n := sb.count
  if s.refcount = 0 ∧ n ≠ 0 then
    let back := sb.slices (n - 1)
    if back.refcount = 0 ∧ back.inlined_length < N then
      if s.inlined_length + back.inlined_length ≤ N then
        let back1 : gpr_slice :=
          { back with
              inlined_bytes :=
                memcpy back.inlined_bytes back.inlined_length s.inlined_bytes 0 s.inlined_length
              inlined_length := back.inlined_length + s.inlined_length }
        some { sb with
                 slices := store sb.slices (n - 1) back1
                 length := sb.length + s.inlined_length }
      else
        let cp1 := N - back.inlined_length
        let back1 : gpr_slice :=
          { back with
              inlined_bytes := memcpy back.inlined_bytes back.inlined_length s.inlined_bytes 0 cp1
              inlined_length := N }
        let sb1 : gpr_slice_buffer := { sb with slices := store sb.slices (n - 1) back1 }
        match grow_if_full sb1 with
        | none => none
        | some sb2 =>
          let back2 := sb2.slices n
          let back3 : gpr_slice :=
            { back2 with
                refcount := 0
                inlined_length := s.inlined_length - cp1
                inlined_bytes :=
                  memcpy back2.inlined_bytes 0 s.inlined_bytes cp1 (s.inlined_length - cp1) }
          some { sb2 with
                   slices := store sb2.slices n back3
                   count := n + 1
                   length := sb2.length + s.inlined_length }
    else (gpr_slice_buffer_add_indexed sb s).map Prod.fst
  else (gpr_slice_buffer_add_indexed sb s).map Prod.fst

/-- The function `gpr_slice_buffer_addn`: the state after the first `n` rounds of the loop
`for (i = 0; i < n; i++) gpr_slice_buffer_add(sb, s[i])`. -/
def gpr_slice_buffer_addn (N : Nat) (sb : gpr_slice_buffer) (s : Nat → gpr_slice) :
    Nat → Option gpr_slice_buffer
  | 0 => some sb
  | i + 1 =>
    match gpr_slice_buffer_addn N sb s i with
    | none => none
    | some sb1 => gpr_slice_buffer_add N sb1 (s i)

/-- The function `gpr_slice_buffer_pop`. -/
def gpr_slice_buffer_pop (sb : gpr_slice_buffer) : gpr_slice_buffer :=
  if sb.count ≠ 0 then
    let count := sb.count - 1
    { sb with count := count, length := sb.length - GPR_SLICE_LENGTH (sb.slices count) }
  else sb

/-- The loop of `gpr_slice_buffer_reset_and_unref` after `n` rounds:
`for (i = 0; i < n; i++) gpr_slice_unref(slices[i])`.  The function `gpr_slice_unref`
belongs to the slice module, outside this source file; it is the parameter `unref`,
acting on the state `w` of that module. -/
def unref_loop {W : Type} (unref : gpr_slice → W → W) (slices : Nat → gpr_slice) :
    Nat → W → W
  | 0, w => w
  | i + 1, w => unref (slices i) (unref_loop unref slices i w)

/-- The function `gpr_slice_buffer_reset_and_unref`: the new buffer state and the new state
of the slice module. -/
def gpr_slice_buffer_reset_and_unref {W : Type} (unref : gpr_slice → W → W)
    (sb : gpr_slice_buffer) (w : W) : gpr_slice_buffer × W :=
  ({ sb with count := 0, length := 0 }, unref_loop unref sb.slices sb.count w)

/-- The sum of the lengths of the entries at indices `0 .. n-1` of a backing array. -/
def slices_length (slices : Nat → gpr_slice) : Nat → Nat
  | 0 => 0
  | i + 1 => slices_length slices i + GPR_SLICE_LENGTH (slices i)

/-- The bytes of the entries at indices `0 .. n-1` of a backing array, one after the other:
the logical byte stream. -/
def slices_bytes (slices : Nat → gpr_slice) : Nat → List gpr_uint8
  | 0 => []
  | i + 1 => slices_bytes slices i ++ slice_bytes (slices i)

/-- The structural invariant of a buffer: the held slices fit the allocated slots, and the
allocation is at least the initial one (`gpr_slice_buffer_init` establishes both, every
operation keeps them). -/
def Valid (sb : gpr_slice_buffer) : Prop :=
  sb.count ≤ sb.capacity ∧ INITIAL_CAPACITY ≤ sb.capacity

instance (sb : gpr_slice_buffer) : Decidable (Valid sb) := by
  unfold Valid; infer_instance

/-- The capacity after the growth block. -/
def grown_capacity (sb : gpr_slice_buffer) : Nat :=
  if sb.count = sb.capacity then GROW sb.capacity else sb.capacity

/-- One call of the interface of the buffer. -/
inductive Op where
  | add (s : gpr_slice)
  | add_indexed (s : gpr_slice)
  | addn (s : Nat → gpr_slice) (n : Nat)
  | tiny_add (n : Nat)
  | pop
  | reset_and_unref

/-- The caller's obligations for a call: an inline slice handed in has length at most `N`,
and `tiny_add` asks for at most `N` bytes. -/
def Op.pre (N : Nat) : Op → Prop
  | Op.add s => s.refcount = 0 → s.inlined_length ≤ N
  | Op.add_indexed s => s.refcount = 0 → s.inlined_length ≤ N
  | Op.addn s n => ∀ i, i < n → (s i).refcount = 0 → (s i).inlined_length ≤ N
  | Op.tiny_add n => n ≤ N
  | Op.pop => True
  | Op.reset_and_unref => True

/-- The effect of one call on the buffer and on the state of the slice module; `none` when
the call aborts. -/
def step {W : Type} (N : Nat) (unref : gpr_slice → W → W) (st : gpr_slice_buffer × W) :
    Op → Option (gpr_slice_buffer × W)
  | Op.add s => (gpr_slice_buffer_add N st.1 s).map fun sb => (sb, st.2)
  | Op.add_indexed s => (gpr_slice_buffer_add_indexed st.1 s).map fun r => (r.1, st.2)
  | Op.addn s n => (gpr_slice_buffer_addn N st.1 s n).map fun sb => (sb, st.2)
  | Op.tiny_add n => (gpr_slice_buffer_tiny_add N st.1 n).map fun r => (r.1, st.2)
  | Op.pop => some (gpr_slice_buffer_pop st.1, st.2)
  | Op.reset_and_unref => some (gpr_slice_buffer_reset_and_unref unref st.1 st.2)

/-- The effect of a finite sequence of calls, first call first. -/
def run {W : Type} (N : Nat) (unref : gpr_slice → W → W) :
    gpr_slice_buffer × W → List Op → Option (gpr_slice_buffer × W)
  | st, [] => some st
  | st, op :: ops =>
    match step N unref st op with
    | none => none
    | some st1 => run N unref st1 ops

/-- The cached length agrees with the held entries. -/
def LenInv (sb : gpr_slice_buffer) : Prop :=
  sb.length = slices_length sb.slices sb.count

/-- The condition under which `gpr_slice_buffer_add` does not touch the tail: the slice is
referenced, or the buffer is empty, or the tail is referenced, or the tail is inline and
full. -/
def NoMerge (N : Nat) (sb : gpr_slice_buffer) (s : gpr_slice) : Prop :=
  s.refcount ≠ 0 ∨ sb.count = 0 ∨ (sb.slices (sb.count - 1)).refcount ≠ 0 ∨
    N ≤ (sb.slices (sb.count - 1)).inlined_length

instance (N : Nat) (sb : gpr_slice_buffer) (s : gpr_slice) : Decidable (NoMerge N sb s) := by
  unfold NoMerge; infer_instance

/-- The condition under which `gpr_slice_buffer_tiny_add` reserves inside the tail: the
buffer is not empty, the tail is inline, and `n` more bytes fit its inline array. -/
def TinyFits (N : Nat) (sb : gpr_slice_buffer) (n : Nat) : Prop :=
  sb.count ≠ 0 ∧ (sb.slices (sb.count - 1)).refcount = 0 ∧
    (sb.slices (sb.count - 1)).inlined_length + n ≤ N

instance (N : Nat) (sb : gpr_slice_buffer) (n : Nat) : Decidable (TinyFits N sb n) := by
  unfold TinyFits; infer_instance

/-- An inline slice with the given length and bytes (the referenced member unused). -/
def inline_slice (len : Nat) (bytes : Nat → gpr_uint8) : gpr_slice :=
  { refcount := 0, refcounted_bytes := fun _ => 0, refcounted_length := 0,
    inlined_length := len, inlined_bytes := bytes }

/-- A referenced slice with the given control block, viewed bytes and length. -/
def referenced_slice (rc : Nat) (len : Nat) (bytes : Nat → gpr_uint8) : gpr_slice :=
  { refcount := rc, refcounted_bytes := bytes, refcounted_length := len,
    inlined_length := 0, inlined_bytes := fun _ => 0 }

/-- Memory that holds empty inline slices in every cell. -/
def zero_mem : Nat → gpr_slice := fun _ => inline_slice 0 (fun _ => 0)

/-- A slice module without state: `gpr_slice_unref` has no effect. -/
def unref_unit : gpr_slice → Unit → Unit := fun _ w => w

/-- A buffer with one inline entry of 5 bytes (0,1,2,3,4), capacity 4: the state after
`gpr_slice_buffer_init` and one add of that slice. -/
def buf5 : gpr_slice_buffer :=
  { slices := store zero_mem 0 (inline_slice 5 (fun i => i)), count := 1, capacity := 4,
    length := 5 }

/-- A buffer with one referenced entry (control block 7, 3 bytes), capacity 4. -/
def buf_ref : gpr_slice_buffer :=
  { slices := store zero_mem 0 (referenced_slice 7 3 (fun i => i)), count := 1, capacity := 4,
    length := 3 }

/-- Modelled from the spec: `gpr_slice_unref`, the release operation of the slice module,
which is not part of this source file.  On a table `rc` of reference counts, indexed by
control block, it decrements the count of the control block of a referenced slice and does
nothing for an inline slice.  The counts are integers, so that every decrement is visible. -/
def gpr_slice_unref (s : gpr_slice) (rc : Nat → Int) : Nat → Int :=
  if s.refcount ≠ 0 then fun h => if h = s.refcount then rc h - 1 else rc h else rc

/-- The entries at indices `0 .. n-1` of a backing array, as a list. -/
def entries (slices : Nat → gpr_slice) (n : Nat) : List gpr_slice :=
  (List.range n).map slices

/-- The number of entries at indices `0 .. n-1` that are referenced with control block `h`. -/
def held (slices : Nat → gpr_slice) (h : Nat) : Nat → Nat
  | 0 => 0
  | i + 1 =>
    held slices h i + (if (slices i).refcount ≠ 0 ∧ (slices i).refcount = h then 1 else 0)

/-- A full buffer: four empty inline entries in four slots. -/
def buf_full : gpr_slice_buffer :=
  { slices := zero_mem, count := 4, capacity := 4, length := 0 }

/-- The reading of `addn` in the specification: the calls add(buf, s[0]), add(buf, s[1]), ...
one after the other over the list of the slices, as a left fold of add from the given
buffer; an abort of one call ends the sequence. -/
def addn_fold (N : Nat) (sb : gpr_slice_buffer) (l : List gpr_slice) : Option gpr_slice_buffer :=
  l.foldl (fun acc x => acc.bind fun b => gpr_slice_buffer_add N b x) (some sb)

/-- The growth rule between the state before a call and the state after it: capacity has
changed exactly when the call took a new slot while count was equal to capacity, and then the
new capacity is `3 * capacity / 2` (rounded down). -/
def GrowthRule (sb sb1 : gpr_slice_buffer) : Prop :=
  (sb1.capacity ≠ sb.capacity ↔ (sb1.count = sb.count + 1 ∧ sb.count = sb.capacity)) ∧
  (sb1.capacity ≠ sb.capacity → sb1.capacity = 3 * sb.capacity / 2)

/-- Four referenced slices (control block 7, 3 bytes each) appended with add_indexed. -/
def four_adds : List Op :=
  [Op.add_indexed (referenced_slice 7 3 (fun i => i)),
   Op.add_indexed (referenced_slice 7 3 (fun i => i)),
   Op.add_indexed (referenced_slice 7 3 (fun i => i)),
   Op.add_indexed (referenced_slice 7 3 (fun i => i))]

/-- Every inline entry among the held ones has length at most `N`. -/
def InlineBound (N : Nat) (sb : gpr_slice_buffer) : Prop :=
  ∀ i, i < sb.count → (sb.slices i).refcount = 0 → (sb.slices i).inlined_length ≤ N

instance (N : Nat) (sb : gpr_slice_buffer) : Decidable (InlineBound N sb) := by
  unfold InlineBound; infer_instance

/-- The calls allowed when a buffer is built from inline slices only: add of an inline slice
of length at most `N`, and addn of such slices. -/
def Op.inline_add (N : Nat) : Op → Prop
  | Op.add s => s.refcount = 0 ∧ s.inlined_length ≤ N
  | Op.addn s n => ∀ i, i < n → (s i).refcount = 0 ∧ (s i).inlined_length ≤ N
  | Op.add_indexed _ => False
  | Op.tiny_add _ => False
  | Op.pop => False
  | Op.reset_and_unref => False

/-- The shape that merging keeps: every held entry is inline with length at most `N`, and
every held entry except the last has length exactly `N`. -/
def Packed (N : Nat) (sb : gpr_slice_buffer) : Prop :=
  (∀ i, i < sb.count → (sb.slices i).refcount = 0 ∧ (sb.slices i).inlined_length ≤ N) ∧
  (∀ i, i + 1 < sb.count → (sb.slices i).inlined_length = N)

/-- The caller's write after `gpr_slice_buffer_tiny_add`: `memcpy(p, b, n)` into the region
`p`, given as the pair (slot, offset) that the call returned. -/
def write_region (sb : gpr_slice_buffer) (p : Nat × Nat) (b : Nat → gpr_uint8) (n : Nat) :
    gpr_slice_buffer :=
  { sb with
      slices := store sb.slices p.1
        { sb.slices p.1 with
            inlined_bytes := memcpy (sb.slices p.1).inlined_bytes p.2 b 0 n } }

/-! ## Shared lemmas and claims -/

theorem GROW_gt (c : Nat) (h : 2 ≤ c) : c < GROW c := by
  unfold GROW; omega

theorem grow_if_full_valid (sb : gpr_slice_buffer) (h : Valid sb) :
    grow_if_full sb = some { sb with capacity := grown_capacity sb } := by
  obtain ⟨h1, h2⟩ := h
  unfold INITIAL_CAPACITY at h2
  unfold grow_if_full grown_capacity
  by_cases hc : sb.count = sb.capacity
  · have hg : sb.count < GROW sb.capacity := by rw [hc]; exact GROW_gt _ (by omega)
    simp [hc] at hg ⊢
    exact hg
  · simp [hc]

theorem grown_capacity_ge (sb : gpr_slice_buffer) : sb.capacity ≤ grown_capacity sb := by
  unfold grown_capacity GROW; split <;> omega

theorem grown_capacity_gt (sb : gpr_slice_buffer) (h : Valid sb) :
    sb.count < grown_capacity sb := by
  obtain ⟨h1, h2⟩ := h
  unfold INITIAL_CAPACITY at h2
  unfold grown_capacity GROW; split <;> omega

theorem store_same (f : Nat → gpr_slice) (i : Nat) (v : gpr_slice) : store f i v i = v := by
  simp [store]

theorem store_other (f : Nat → gpr_slice) (i j : Nat) (v : gpr_slice) (h : j ≠ i) :
    store f i v j = f j := by
  simp [store, h]

theorem slices_length_store (f : Nat → gpr_slice) (i : Nat) (v : gpr_slice) (n : Nat)
    (h : n ≤ i) : slices_length (store f i v) n = slices_length f n := by
  induction n with
  | zero => rfl
  | succ k ih =>
    have hk : k ≠ i := by omega
    simp [slices_length, ih (by omega), store_other _ _ _ _ hk]

theorem slices_bytes_store (f : Nat → gpr_slice) (i : Nat) (v : gpr_slice) (n : Nat)
    (h : n ≤ i) : slices_bytes (store f i v) n = slices_bytes f n := by
  induction n with
  | zero => rfl
  | succ k ih =>
    have hk : k ≠ i := by omega
    simp [slices_bytes, ih (by omega), store_other _ _ _ _ hk]

theorem slices_length_tail (f : Nat → gpr_slice) (m : Nat) (v : gpr_slice) :
    slices_length (store f m v) (m + 1) = slices_length f m + GPR_SLICE_LENGTH v := by
  simp [slices_length, slices_length_store f m v m (le_refl m), store_same]

theorem slices_bytes_tail (f : Nat → gpr_slice) (m : Nat) (v : gpr_slice) :
    slices_bytes (store f m v) (m + 1) = slices_bytes f m ++ slice_bytes v := by
  simp [slices_bytes, slices_bytes_store f m v m (le_refl m), store_same]

theorem add_indexed_valid (sb : gpr_slice_buffer) (s : gpr_slice) (h : Valid sb) :
    gpr_slice_buffer_add_indexed sb s =
      some ({ slices := store sb.slices sb.count s
              count := sb.count + 1
              capacity := grown_capacity sb
              length := sb.length + GPR_SLICE_LENGTH s }, sb.count) := by
  simp [gpr_slice_buffer_add_indexed, grow_if_full_valid sb h]

theorem tiny_add_new_valid (sb : gpr_slice_buffer) (n : Nat) (h : Valid sb) :
    tiny_add_new sb n =
      some ({ slices := store sb.slices sb.count
                { sb.slices sb.count with refcount := 0, inlined_length := n }
              count := sb.count + 1
              capacity := grown_capacity sb
              length := sb.length }, (sb.count, 0)) := by
  simp [tiny_add_new, grow_if_full_valid sb h]

theorem add_nomerge (N : Nat) (sb : gpr_slice_buffer) (s : gpr_slice) (h : NoMerge N sb s) :
    gpr_slice_buffer_add N sb s = (gpr_slice_buffer_add_indexed sb s).map Prod.fst := by
  unfold gpr_slice_buffer_add
  by_cases h1 : s.refcount = 0 ∧ sb.count ≠ 0
  · by_cases h2 : (sb.slices (sb.count - 1)).refcount = 0 ∧
        (sb.slices (sb.count - 1)).inlined_length < N
    · exfalso
      rcases h with h | h | h | h
      · exact h h1.1
      · exact h1.2 h
      · exact h h2.1
      · omega
    · simp only [h1, h2, and_self, if_true, if_false, ne_eq, not_false_eq_true]
  · simp only [h1, if_false]

theorem add_merge (N : Nat) (sb : gpr_slice_buffer) (s : gpr_slice)
    (hs : s.refcount = 0) (hc : sb.count ≠ 0)
    (hb : (sb.slices (sb.count - 1)).refcount = 0)
    (ht : (sb.slices (sb.count - 1)).inlined_length < N)
    (hfit : s.inlined_length + (sb.slices (sb.count - 1)).inlined_length ≤ N) :
    gpr_slice_buffer_add N sb s =
      some { sb with
        slices := store sb.slices (sb.count - 1)
          { sb.slices (sb.count - 1) with
              inlined_bytes := memcpy (sb.slices (sb.count - 1)).inlined_bytes
                (sb.slices (sb.count - 1)).inlined_length s.inlined_bytes 0 s.inlined_length
              inlined_length := (sb.slices (sb.count - 1)).inlined_length + s.inlined_length }
        length := sb.length + s.inlined_length } := by
  simp [gpr_slice_buffer_add, hs, hc, hb, ht, hfit]

theorem add_split (N : Nat) (sb : gpr_slice_buffer) (s : gpr_slice) (hv : Valid sb)
    (hs : s.refcount = 0) (hc : sb.count ≠ 0)
    (hb : (sb.slices (sb.count - 1)).refcount = 0)
    (ht : (sb.slices (sb.count - 1)).inlined_length < N)
    (hfit : ¬ s.inlined_length + (sb.slices (sb.count - 1)).inlined_length ≤ N) :
    gpr_slice_buffer_add N sb s =
      some { slices :=
               store
                 (store sb.slices (sb.count - 1)
                   { sb.slices (sb.count - 1) with
                       inlined_bytes := memcpy (sb.slices (sb.count - 1)).inlined_bytes
                         (sb.slices (sb.count - 1)).inlined_length s.inlined_bytes 0
                         (N - (sb.slices (sb.count - 1)).inlined_length)
                       inlined_length := N })
                 sb.count
                 { sb.slices sb.count with
                     refcount := 0
                     inlined_length :=
                       s.inlined_length - (N - (sb.slices (sb.count - 1)).inlined_length)
                     inlined_bytes := memcpy (sb.slices sb.count).inlined_bytes 0 s.inlined_bytes
                       (N - (sb.slices (sb.count - 1)).inlined_length)
                       (s.inlined_length - (N - (sb.slices (sb.count - 1)).inlined_length)) }
             count := sb.count + 1
             capacity := grown_capacity sb
             length := sb.length + s.inlined_length } := by
  have hv1 : ∀ f : Nat → gpr_slice, Valid { sb with slices := f } := fun _ => hv
  have hne : sb.count ≠ sb.count - 1 := by omega
  simp [gpr_slice_buffer_add, hs, hc, hb, ht, hfit, grow_if_full_valid _ (hv1 _), grown_capacity,
    store_other _ _ _ _ hne]

theorem tiny_add_fits (N : Nat) (sb : gpr_slice_buffer) (n : Nat) (h : TinyFits N sb n) :
    gpr_slice_buffer_tiny_add N sb n =
      some ({ sb with
                slices := store sb.slices (sb.count - 1)
                  { sb.slices (sb.count - 1) with
                      inlined_length := (sb.slices (sb.count - 1)).inlined_length + n }
                length := sb.length + n },
            (sb.count - 1, (sb.slices (sb.count - 1)).inlined_length)) := by
  obtain ⟨h1, h2, h3⟩ := h
  have h4 : ¬ N < (sb.slices (sb.count - 1)).inlined_length + n := by omega
  simp [gpr_slice_buffer_tiny_add, h1, h2, h4]

theorem tiny_add_fresh (N : Nat) (sb : gpr_slice_buffer) (n : Nat) (hv : Valid sb)
    (h : ¬ TinyFits N sb n) :
    gpr_slice_buffer_tiny_add N sb n =
      some ({ slices := store sb.slices sb.count
                { sb.slices sb.count with refcount := 0, inlined_length := n }
              count := sb.count + 1
              capacity := grown_capacity sb
              length := sb.length + n }, (sb.count, 0)) := by
  have hv0 : Valid { sb with length := sb.length + n } := hv
  have hn := tiny_add_new_valid _ n hv0
  simp only [grown_capacity] at hn ⊢
  unfold gpr_slice_buffer_tiny_add
  by_cases h1 : sb.count = 0
  · simp only [h1, if_true] at hn ⊢
    exact hn
  · by_cases h2 : (sb.slices (sb.count - 1)).refcount ≠ 0
    · simp only [h1, h2, if_true, if_false, ne_eq, not_false_eq_true] at hn ⊢
      exact hn
    · by_cases h3 : (sb.slices (sb.count - 1)).inlined_length + n > N
      · simp only [h1, h2, h3, if_true, if_false] at hn ⊢
        exact hn
      · exfalso
        apply h
        refine ⟨h1, ?_, by omega⟩
        simpa using h2

theorem add_indexed_preserves (sb : gpr_slice_buffer) (s : gpr_slice) (hv : Valid sb) :
    ∃ r, gpr_slice_buffer_add_indexed sb s = some r ∧ Valid r.1 ∧
      sb.capacity ≤ r.1.capacity ∧ (LenInv sb → LenInv r.1) := by
  refine ⟨_, add_indexed_valid sb s hv, ⟨?_, ?_⟩, grown_capacity_ge sb, ?_⟩
  · exact grown_capacity_gt sb hv
  · exact le_trans hv.2 (grown_capacity_ge sb)
  · intro hl
    unfold LenInv at hl ⊢
    simp only [slices_length_tail, hl]

theorem add_preserves (N : Nat) (sb : gpr_slice_buffer) (s : gpr_slice) (hv : Valid sb) :
    ∃ sb1, gpr_slice_buffer_add N sb s = some sb1 ∧ Valid sb1 ∧
      sb.capacity ≤ sb1.capacity ∧ (LenInv sb → LenInv sb1) := by
  by_cases hn : NoMerge N sb s
  · obtain ⟨r, hr, h1, h2, h3⟩ := add_indexed_preserves sb s hv
    exact ⟨r.1, by rw [add_nomerge N sb s hn, hr]; rfl, h1, h2, h3⟩
  · unfold NoMerge at hn
    push_neg at hn
    obtain ⟨hs, hc, hb, ht⟩ := hn
    obtain ⟨m, hm⟩ : ∃ m, sb.count = m + 1 := ⟨sb.count - 1, by omega⟩
    by_cases hfit : s.inlined_length + (sb.slices (sb.count - 1)).inlined_length ≤ N
    · refine ⟨_, add_merge N sb s hs hc hb ht hfit, hv, le_refl _, ?_⟩
      intro hl
      unfold LenInv at hl ⊢
      simp only [hm, Nat.add_sub_cancel, slices_length_tail] at hl hb ⊢
      rw [hl]
      simp [slices_length, GPR_SLICE_LENGTH, hb]
      omega
    · refine ⟨_, add_split N sb s hv hs hc hb ht hfit, ⟨?_, ?_⟩, grown_capacity_ge sb, ?_⟩
      · exact grown_capacity_gt sb hv
      · exact le_trans hv.2 (grown_capacity_ge sb)
      · intro hl
        unfold LenInv at hl ⊢
        simp only [hm, Nat.add_sub_cancel, slices_length_tail] at hl hb ht hfit ⊢
        rw [hl]
        simp [slices_length, GPR_SLICE_LENGTH, hb]
        omega

theorem addn_preserves (N : Nat) (sb : gpr_slice_buffer) (s : Nat → gpr_slice) (n : Nat)
    (hv : Valid sb) :
    ∃ sb1, gpr_slice_buffer_addn N sb s n = some sb1 ∧ Valid sb1 ∧
      sb.capacity ≤ sb1.capacity ∧ (LenInv sb → LenInv sb1) := by
  induction n with
  | zero => exact ⟨sb, rfl, hv, le_refl _, id⟩
  | succ k ih =>
    obtain ⟨sb1, h0, h1, h2, h3⟩ := ih
    obtain ⟨sb2, g0, g1, g2, g3⟩ := add_preserves N sb1 (s k) h1
    refine ⟨sb2, ?_, g1, le_trans h2 g2, fun hl => g3 (h3 hl)⟩
    simp [gpr_slice_buffer_addn, h0, g0]

theorem tiny_add_preserves (N : Nat) (sb : gpr_slice_buffer) (n : Nat) (hv : Valid sb) :
    ∃ r, gpr_slice_buffer_tiny_add N sb n = some r ∧ Valid r.1 ∧
      sb.capacity ≤ r.1.capacity ∧ (LenInv sb → LenInv r.1) := by
  by_cases hf : TinyFits N sb n
  · refine ⟨_, tiny_add_fits N sb n hf, hv, le_refl _, ?_⟩
    obtain ⟨hc, hb, _⟩ := hf
    obtain ⟨m, hm⟩ : ∃ m, sb.count = m + 1 := ⟨sb.count - 1, by omega⟩
    intro hl
    unfold LenInv at hl ⊢
    simp only [hm, Nat.add_sub_cancel, slices_length_tail] at hl hb ⊢
    rw [hl]
    simp [slices_length, GPR_SLICE_LENGTH, hb]
    omega
  · refine ⟨_, tiny_add_fresh N sb n hv hf, ⟨?_, ?_⟩, grown_capacity_ge sb, ?_⟩
    · exact grown_capacity_gt sb hv
    · exact le_trans hv.2 (grown_capacity_ge sb)
    · intro hl
      unfold LenInv at hl ⊢
      simp only [slices_length_tail, hl]
      simp [GPR_SLICE_LENGTH]

theorem pop_preserves (sb : gpr_slice_buffer) (hv : Valid sb) :
    Valid (gpr_slice_buffer_pop sb) ∧ sb.capacity ≤ (gpr_slice_buffer_pop sb).capacity ∧
      (LenInv sb → LenInv (gpr_slice_buffer_pop sb)) := by
  unfold gpr_slice_buffer_pop
  by_cases hc : sb.count = 0
  · simp only [hc, ne_eq, not_true_eq_false, if_false]
    exact ⟨hv, le_refl _, id⟩
  · obtain ⟨m, hm⟩ : ∃ m, sb.count = m + 1 := ⟨sb.count - 1, by omega⟩
    simp only [hc, ne_eq, not_false_eq_true, if_true]
    refine ⟨⟨?_, hv.2⟩, le_refl _, ?_⟩
    · have := hv.1
      show sb.count - 1 ≤ sb.capacity
      omega
    · intro hl
      unfold LenInv at hl ⊢
      simp only [hm, Nat.add_sub_cancel, slices_length] at hl ⊢
      omega

theorem step_preserves {W : Type} (N : Nat) (unref : gpr_slice → W → W)
    (st : gpr_slice_buffer × W) (op : Op) (hv : Valid st.1) :
    ∃ st1, step N unref st op = some st1 ∧ Valid st1.1 ∧
      st.1.capacity ≤ st1.1.capacity ∧ (LenInv st.1 → LenInv st1.1) := by
  cases op with
  | add s =>
    obtain ⟨sb1, h0, h⟩ := add_preserves N st.1 s hv
    exact ⟨(sb1, st.2), by simp [step, h0], h⟩
  | add_indexed s =>
    obtain ⟨r, h0, h⟩ := add_indexed_preserves st.1 s hv
    exact ⟨(r.1, st.2), by simp [step, h0], h⟩
  | addn s n =>
    obtain ⟨sb1, h0, h⟩ := addn_preserves N st.1 s n hv
    exact ⟨(sb1, st.2), by simp [step, h0], h⟩
  | tiny_add n =>
    obtain ⟨r, h0, h⟩ := tiny_add_preserves N st.1 n hv
    exact ⟨(r.1, st.2), by simp [step, h0], h⟩
  | pop => exact ⟨_, rfl, pop_preserves st.1 hv⟩
  | reset_and_unref =>
    refine ⟨_, rfl, ⟨Nat.zero_le _, hv.2⟩, le_refl _, fun _ => rfl⟩

theorem run_preserves {W : Type} (N : Nat) (unref : gpr_slice → W → W) (ops : List Op)
    (st : gpr_slice_buffer × W) (hv : Valid st.1) :
    ∃ st1, run N unref st ops = some st1 ∧ Valid st1.1 ∧
      st.1.capacity ≤ st1.1.capacity ∧ (LenInv st.1 → LenInv st1.1) := by
  induction ops generalizing st with
  | nil => exact ⟨st, rfl, hv, le_refl _, id⟩
  | cons op ops ih =>
    obtain ⟨st1, h0, h1, h2, h3⟩ := step_preserves N unref st op hv
    obtain ⟨st2, g0, g1, g2, g3⟩ := ih st1 h1
    exact ⟨st2, by simp [run, h0, g0], g1, le_trans h2 g2, fun hl => g3 (h3 hl)⟩

theorem init_valid (mem : Nat → gpr_slice) : Valid (gpr_slice_buffer_init mem) :=
  ⟨Nat.zero_le _, le_refl _⟩

theorem bytes_upto_add (p : Nat → gpr_uint8) (a b : Nat) :
    bytes_upto p (a + b) = bytes_upto p a ++ bytes_upto (fun i => p (a + i)) b := by
  simp [bytes_upto, List.range_add, List.map_map, Function.comp_def]

theorem bytes_upto_congr (p q : Nat → gpr_uint8) (n : Nat) (h : ∀ i, i < n → p i = q i) :
    bytes_upto p n = bytes_upto q n := by
  unfold bytes_upto
  apply List.map_congr_left
  intro i hi
  exact h i (List.mem_range.mp hi)

theorem bytes_upto_length (p : Nat → gpr_uint8) (n : Nat) : (bytes_upto p n).length = n := by
  simp [bytes_upto]

theorem bytes_upto_memcpy_low (d src : Nat → gpr_uint8) (t soff k n : Nat) (h : n ≤ t) :
    bytes_upto (memcpy d t src soff k) n = bytes_upto d n := by
  apply bytes_upto_congr
  intro i hi
  have : ¬ (t ≤ i ∧ i < t + k) := by omega
  simp [memcpy, this]

theorem bytes_upto_memcpy_high (d src : Nat → gpr_uint8) (t soff k : Nat) :
    bytes_upto (fun i => memcpy d t src soff k (t + i)) k =
      bytes_upto (fun i => src (soff + i)) k := by
  apply bytes_upto_congr
  intro i hi
  simp [memcpy, hi]

theorem bytes_upto_memcpy (d src : Nat → gpr_uint8) (t k : Nat) :
    bytes_upto (memcpy d t src 0 k) (t + k) = bytes_upto d t ++ bytes_upto src k := by
  rw [bytes_upto_add, bytes_upto_memcpy_low _ _ _ _ _ _ (le_refl t), bytes_upto_memcpy_high]
  simp

/-- C1, length invariant: from `gpr_slice_buffer_init`, every finite sequence of calls of
add, add_indexed, addn, tiny_add and pop (and reset_and_unref) that respects the caller's
obligations (inline slices of length at most N, tiny_add of at most N bytes) runs without
abort, and after every call (after the first k calls, for every k) the cached length equals
the sum of the lengths of the entries at indices 0..count-1. -/
theorem C1_length_invariant {W : Type} (N : Nat) (unref : gpr_slice → W → W)
    (mem : Nat → gpr_slice) (w : W) (ops : List Op) (_hpre : ∀ op ∈ ops, Op.pre N op)
    (k : Nat) :
    ∃ st, run N unref (gpr_slice_buffer_init mem, w) (ops.take k) = some st ∧
      st.1.length = slices_length st.1.slices st.1.count := by
  obtain ⟨st, h0, _, _, h3⟩ :=
    run_preserves N unref (ops.take k) (gpr_slice_buffer_init mem, w) (init_valid mem)
  exact ⟨st, h0, h3 rfl⟩

/-- Witness of C1: tiny_add(5), add of an inline slice of 5 bytes, pop, with N = 8. -/
theorem C1_length_invariant_witness :
    (∀ op ∈ [Op.tiny_add 5, Op.add (inline_slice 5 (fun i => i)), Op.pop], Op.pre 8 op) ∧
    ∃ st, run 8 unref_unit (gpr_slice_buffer_init zero_mem, ())
        ([Op.tiny_add 5, Op.add (inline_slice 5 (fun i => i)), Op.pop].take 3) = some st ∧
      st.1.length = slices_length st.1.slices st.1.count :=
  have hpre : ∀ op ∈ [Op.tiny_add 5, Op.add (inline_slice 5 (fun i => i)), Op.pop],
      Op.pre 8 op := by
    intro op h
    simp only [List.mem_cons, List.mem_singleton, List.not_mem_nil, or_false] at h
    rcases h with rfl | rfl | rfl <;> simp [Op.pre, inline_slice]
  ⟨hpre, C1_length_invariant 8 unref_unit zero_mem () _ hpre 3⟩

theorem add_init (N : Nat) (mem : Nat → gpr_slice) (a : gpr_slice) :
    gpr_slice_buffer_add N (gpr_slice_buffer_init mem) a =
      some { slices := store mem 0 a, count := 1, capacity := INITIAL_CAPACITY,
             length := GPR_SLICE_LENGTH a } := by
  have hn : NoMerge N (gpr_slice_buffer_init mem) a := Or.inr (Or.inl rfl)
  rw [add_nomerge N _ a hn, add_indexed_valid _ a (init_valid mem)]
  simp [gpr_slice_buffer_init, grown_capacity, INITIAL_CAPACITY]

/-- C2, counterexample to the claim as stated: with N = 8, a an inline slice of length 8 and
b an inline slice of length 0 (combined length 8 <= N), add(a) then add(b) on a fresh buffer
does not yield one entry: the tail is full, b becomes a second entry and count is 2. -/
theorem C2_counterexample :
    (inline_slice 8 (fun i => i)).refcount = 0 ∧ (inline_slice 0 (fun _ => 0)).refcount = 0 ∧
    (inline_slice 8 (fun i => i)).inlined_length + (inline_slice 0 (fun _ => 0)).inlined_length ≤ 8 ∧
    (∃ sb, (gpr_slice_buffer_add 8 (gpr_slice_buffer_init zero_mem)
              (inline_slice 8 (fun i => i))).bind
            (fun sb1 => gpr_slice_buffer_add 8 sb1 (inline_slice 0 (fun _ => 0))) = some sb ∧
          sb.count = 2) ∧
    ¬ (∃ sb, (gpr_slice_buffer_add 8 (gpr_slice_buffer_init zero_mem)
              (inline_slice 8 (fun i => i))).bind
            (fun sb1 => gpr_slice_buffer_add 8 sb1 (inline_slice 0 (fun _ => 0))) = some sb ∧
          sb.count = 1 ∧
          slice_bytes (sb.slices 0) =
            slice_bytes (inline_slice 8 (fun i => i)) ++
              slice_bytes (inline_slice 0 (fun _ => 0))) := by
  have hrun : (gpr_slice_buffer_add 8 (gpr_slice_buffer_init zero_mem)
              (inline_slice 8 (fun i => i))).bind
            (fun sb1 => gpr_slice_buffer_add 8 sb1 (inline_slice 0 (fun _ => 0))) =
          some { slices := store (store zero_mem 0 (inline_slice 8 (fun i => i))) 1
                   (inline_slice 0 (fun _ => 0))
                 count := 2, capacity := 4, length := 8 } := by
    rfl
  refine ⟨rfl, rfl, by decide, ⟨_, hrun, rfl⟩, ?_⟩
  rintro ⟨sb, h, hc, _⟩
  rw [hrun] at h
  cases h
  simp at hc

/-- C2 as amended, merge correctness: for inline slices a and b with
length(a) + length(b) <= N, add(a) then add(b) on a freshly initialised buffer runs without
abort; when length(a) < N the result has exactly one entry, whose bytes are the bytes of a
followed by the bytes of b; when length(a) = N (the tail is full and b is empty) the tail is
left alone and b becomes a second entry. -/
theorem C2_merge_correctness (N : Nat) (mem : Nat → gpr_slice) (a b : gpr_slice)
    (ha : a.refcount = 0) (hb : b.refcount = 0)
    (hab : a.inlined_length + b.inlined_length ≤ N) :
    ∃ sb, (gpr_slice_buffer_add N (gpr_slice_buffer_init mem) a).bind
            (fun sb1 => gpr_slice_buffer_add N sb1 b) = some sb ∧
      sb.length = a.inlined_length + b.inlined_length ∧
      (a.inlined_length < N →
        sb.count = 1 ∧ slice_bytes (sb.slices 0) = slice_bytes a ++ slice_bytes b) ∧
      (a.inlined_length = N → sb.count = 2 ∧ sb.slices 0 = a ∧ sb.slices 1 = b) := by
  rw [add_init]
  simp only [Option.bind]
  by_cases hlt : a.inlined_length < N
  · rw [add_merge N _ b hb (by simp) (by simpa [store] using ha) (by simpa [store] using hlt)
      (by simp only [Nat.add_sub_cancel, store_same]; omega)]
    refine ⟨_, rfl, ?_, ?_, ?_⟩
    · simp [GPR_SLICE_LENGTH, ha]
    · intro _
      refine ⟨rfl, ?_⟩
      simp only [Nat.add_sub_cancel, store_same, slice_bytes, ha, hb, ne_eq, not_true_eq_false,
        if_false]
      exact bytes_upto_memcpy _ _ _ _
    · intro h; omega
  · have hn : NoMerge N ⟨store mem 0 a, 1, INITIAL_CAPACITY, GPR_SLICE_LENGTH a⟩ b := by
      right; right; right
      simp only [Nat.add_sub_cancel, store_same]
      omega
    rw [add_nomerge N _ b hn, add_indexed_valid _ b (by unfold Valid INITIAL_CAPACITY; simp)]
    refine ⟨_, rfl, ?_, ?_, ?_⟩
    · simp [GPR_SLICE_LENGTH, ha, hb]
    · intro h; omega
    · intro _
      exact ⟨rfl, by simp [store], by simp [store]⟩

/-- Witness of C2 as amended: N = 8, a of length 3 and b of length 5. -/
theorem C2_merge_correctness_witness :
    ∃ sb, (gpr_slice_buffer_add 8 (gpr_slice_buffer_init zero_mem)
              (inline_slice 3 (fun i => i + 1))).bind
            (fun sb1 => gpr_slice_buffer_add 8 sb1 (inline_slice 5 (fun i => i + 4))) = some sb ∧
      sb.length = (inline_slice 3 (fun i => i + 1)).inlined_length +
          (inline_slice 5 (fun i => i + 4)).inlined_length ∧
      ((inline_slice 3 (fun i => i + 1)).inlined_length < 8 →
        sb.count = 1 ∧ slice_bytes (sb.slices 0) =
          slice_bytes (inline_slice 3 (fun i => i + 1)) ++
            slice_bytes (inline_slice 5 (fun i => i + 4))) ∧
      ((inline_slice 3 (fun i => i + 1)).inlined_length = 8 →
        sb.count = 2 ∧ sb.slices 0 = inline_slice 3 (fun i => i + 1) ∧
          sb.slices 1 = inline_slice 5 (fun i => i + 4)) :=
  C2_merge_correctness 8 zero_mem (inline_slice 3 (fun i => i + 1))
    (inline_slice 5 (fun i => i + 4)) rfl rfl (by decide)

/-- C3, counterexample to the claim as stated: with N = 8 and a buffer whose only entry is
inline of length 5, add of an inline slice of length 5 creates a new entry (count 1 -> 2) after
filling the tail to 8; the following pop restores count but leaves length at 8 (not 5) and the
prior entry with length 8 (not 5). -/
theorem C3_counterexample :
    Valid buf5 ∧
    ∃ sb1, gpr_slice_buffer_add 8 buf5 (inline_slice 5 (fun i => i + 5)) = some sb1 ∧
      sb1.count = buf5.count + 1 ∧
      (gpr_slice_buffer_pop sb1).count = buf5.count ∧
      (gpr_slice_buffer_pop sb1).length = 8 ∧ buf5.length = 5 ∧
      (gpr_slice_buffer_pop sb1).length ≠ buf5.length ∧
      GPR_SLICE_LENGTH ((gpr_slice_buffer_pop sb1).slices 0) = 8 ∧
      GPR_SLICE_LENGTH (buf5.slices 0) = 5 ∧
      (gpr_slice_buffer_pop sb1).slices 0 ≠ buf5.slices 0 := by
  refine ⟨by decide, _, rfl, rfl, rfl, rfl, rfl, by decide, rfl, rfl, ?_⟩
  intro h
  have h2 := congrArg gpr_slice.inlined_length h
  revert h2
  decide

/-- C3 as amended, pop after add: for every buffer and slice s,
(1) if add takes the no-merge path (s referenced, buffer empty, tail referenced or tail full)
it creates a new entry and the following pop restores count and length and leaves every
prior entry unchanged;
(2) if add splits s across the tail (tail inline with length t < N, t + length(s) > N) it
creates a new entry, and the following pop restores count, but the tail keeps length N and
the cached length stays larger than before the add by N - t;
(3) if add merges s into the tail it creates no entry, and the following pop removes the
merged tail: count is one less than before the add. -/
theorem C3_pop_after_add (N : Nat) (sb : gpr_slice_buffer) (s : gpr_slice) (hv : Valid sb) :
    ∃ sb1, gpr_slice_buffer_add N sb s = some sb1 ∧
      (NoMerge N sb s →
        sb1.count = sb.count + 1 ∧
        (gpr_slice_buffer_pop sb1).count = sb.count ∧
        (gpr_slice_buffer_pop sb1).length = sb.length ∧
        ∀ i, i < sb.count → (gpr_slice_buffer_pop sb1).slices i = sb.slices i) ∧
      (¬ NoMerge N sb s →
        ¬ s.inlined_length + (sb.slices (sb.count - 1)).inlined_length ≤ N →
        sb1.count = sb.count + 1 ∧
        (gpr_slice_buffer_pop sb1).count = sb.count ∧
        (gpr_slice_buffer_pop sb1).length =
          sb.length + (N - (sb.slices (sb.count - 1)).inlined_length) ∧
        GPR_SLICE_LENGTH ((gpr_slice_buffer_pop sb1).slices (sb.count - 1)) = N ∧
        ∀ i, i < sb.count - 1 → (gpr_slice_buffer_pop sb1).slices i = sb.slices i) ∧
      (¬ NoMerge N sb s →
        s.inlined_length + (sb.slices (sb.count - 1)).inlined_length ≤ N →
        sb1.count = sb.count ∧
        (gpr_slice_buffer_pop sb1).count = sb.count - 1 ∧
        ∀ i, i < sb.count - 1 → (gpr_slice_buffer_pop sb1).slices i = sb.slices i) := by
  by_cases hn : NoMerge N sb s
  · rw [add_nomerge N sb s hn, add_indexed_valid sb s hv]
    refine ⟨_, rfl, ?_, fun h => absurd hn h, fun h => absurd hn h⟩
    intro _
    refine ⟨rfl, ?_, ?_, ?_⟩
    · simp [gpr_slice_buffer_pop]
    · simp [gpr_slice_buffer_pop, store_same]
    · intro i hi
      have : i ≠ sb.count := by omega
      simp [gpr_slice_buffer_pop, store_other _ _ _ _ this]
  · have hn0 := hn
    unfold NoMerge at hn0
    push_neg at hn0
    obtain ⟨hs, hc, hb, ht⟩ := hn0
    by_cases hfit : s.inlined_length + (sb.slices (sb.count - 1)).inlined_length ≤ N
    · rw [add_merge N sb s hs hc hb ht hfit]
      refine ⟨_, rfl, fun h => absurd h hn, fun _ h => absurd hfit h, ?_⟩
      intro _ _
      refine ⟨rfl, ?_, ?_⟩
      · simp [gpr_slice_buffer_pop, hc]
      · intro i hi
        have : i ≠ sb.count - 1 := by omega
        simp [gpr_slice_buffer_pop, hc, store_other _ _ _ _ this]
    · rw [add_split N sb s hv hs hc hb ht hfit]
      refine ⟨_, rfl, fun h => absurd h hn, ?_, fun _ h => absurd h hfit⟩
      intro _ _
      have hne : sb.count - 1 ≠ sb.count := by omega
      refine ⟨rfl, ?_, ?_, ?_, ?_⟩
      · simp [gpr_slice_buffer_pop]
      · simp [gpr_slice_buffer_pop, store_same, GPR_SLICE_LENGTH]
        omega
      · simp [gpr_slice_buffer_pop, store_same, store_other _ _ _ _ hne, GPR_SLICE_LENGTH, hb]
      · intro i hi
        have h1 : i ≠ sb.count := by omega
        have h2 : i ≠ sb.count - 1 := by omega
        simp [gpr_slice_buffer_pop, store_other _ _ _ _ h1, store_other _ _ _ _ h2]

/-- Witness of C3 as amended, in the split case: N = 8, tail of length 5, slice of length 5;
after add and pop count is 1 again and the length is 5 + (8 - 5). -/
theorem C3_pop_after_add_witness :
    Valid buf5 ∧
    ∃ sb1, gpr_slice_buffer_add 8 buf5 (inline_slice 5 (fun i => i + 5)) = some sb1 ∧
      sb1.count = buf5.count + 1 ∧
      (gpr_slice_buffer_pop sb1).count = buf5.count ∧
      (gpr_slice_buffer_pop sb1).length =
        buf5.length + (8 - (buf5.slices (buf5.count - 1)).inlined_length) := by
  refine ⟨by decide, ?_⟩
  obtain ⟨sb1, h0, _, h2, _⟩ :=
    C3_pop_after_add 8 buf5 (inline_slice 5 (fun i => i + 5)) (by decide)
  have h := h2 (by decide) (by decide)
  exact ⟨sb1, h0, h.1, h.2.1, h.2.2.1⟩

/-- C4, counterexample to the claim as stated: with N = 8, tiny_add(5) twice from the empty
buffer leaves two entries of lengths 5 and 5, not 8 and 2. -/
theorem C4_counterexample :
    ∃ r1 r2, gpr_slice_buffer_tiny_add 8 (gpr_slice_buffer_init zero_mem) 5 = some r1 ∧
      gpr_slice_buffer_tiny_add 8 r1.1 5 = some r2 ∧
      r2.1.count = 2 ∧
      GPR_SLICE_LENGTH (r2.1.slices 0) = 5 ∧ GPR_SLICE_LENGTH (r2.1.slices 1) = 5 ∧
      ¬ (GPR_SLICE_LENGTH (r2.1.slices 0) = 8 ∧ GPR_SLICE_LENGTH (r2.1.slices 1) = 2) :=
  ⟨_, _, rfl, rfl, rfl, rfl, rfl, by decide⟩

/-- C4 as amended, end-to-end scenario: with N = 8, starting from an empty buffer, the first
tiny_add(5) creates one entry of length 5 and returns its offset 0; the second tiny_add(5)
finds only 3 bytes left in the tail, leaves the tail alone and creates a new entry of length 5,
returning offset 0 of slot 1; the final state has exactly 2 entries, of lengths 5 and 5, and
the cached length is 10. -/
theorem C4_tiny_add_scenario (mem : Nat → gpr_slice) :
    ∃ r1 r2, gpr_slice_buffer_tiny_add 8 (gpr_slice_buffer_init mem) 5 = some r1 ∧
      r1.1.count = 1 ∧ GPR_SLICE_LENGTH (r1.1.slices 0) = 5 ∧ r1.2 = (0, 0) ∧
      gpr_slice_buffer_tiny_add 8 r1.1 5 = some r2 ∧
      r2.2 = (1, 0) ∧ r2.1.count = 2 ∧
      GPR_SLICE_LENGTH (r2.1.slices 0) = 5 ∧ GPR_SLICE_LENGTH (r2.1.slices 1) = 5 ∧
      r2.1.length = 10 :=
  ⟨_, _, rfl, rfl, rfl, rfl, rfl, rfl, rfl, rfl, rfl, rfl⟩

theorem bytes_upto_take (p : Nat → gpr_uint8) (k n : Nat) (h : k ≤ n) :
    (bytes_upto p n).take k = bytes_upto p k := by
  obtain ⟨d, rfl⟩ := Nat.exists_eq_add_of_le h
  rw [bytes_upto_add]
  exact List.take_left' (bytes_upto_length p k)

theorem bytes_upto_drop (p : Nat → gpr_uint8) (k n : Nat) (h : k ≤ n) :
    (bytes_upto p n).drop k = bytes_upto (fun i => p (k + i)) (n - k) := by
  obtain ⟨d, rfl⟩ := Nat.exists_eq_add_of_le h
  rw [bytes_upto_add, Nat.add_sub_cancel_left]
  exact List.drop_left' (bytes_upto_length p k)

/-- C5, split correctness: for every buffer whose tail is an inline entry of length t < N and
every inline slice s with length(s) <= N and t + length(s) > N, add runs without abort and
creates exactly one new inline entry; the old tail has length exactly N, its bytes are its
old t bytes followed by the first N - t bytes of s; the new entry holds the remaining
length(s) - (N - t) bytes of s; tail bytes followed by new entry bytes are the old tail bytes
followed by all bytes of s; the entries before the tail are unchanged and the cached length
grows by length(s). -/
theorem C5_split_correctness (N : Nat) (sb : gpr_slice_buffer) (s : gpr_slice)
    (hv : Valid sb) (hc : sb.count ≠ 0)
    (hb : (sb.slices (sb.count - 1)).refcount = 0)
    (ht : (sb.slices (sb.count - 1)).inlined_length < N)
    (hs : s.refcount = 0) (_hsN : s.inlined_length ≤ N)
    (hover : (sb.slices (sb.count - 1)).inlined_length + s.inlined_length > N) :
    ∃ sb1, gpr_slice_buffer_add N sb s = some sb1 ∧
      sb1.count = sb.count + 1 ∧
      (sb1.slices (sb.count - 1)).refcount = 0 ∧
      (sb1.slices (sb.count - 1)).inlined_length = N ∧
      (slice_bytes (sb1.slices (sb.count - 1))).take
          (sb.slices (sb.count - 1)).inlined_length = slice_bytes (sb.slices (sb.count - 1)) ∧
      (slice_bytes (sb1.slices (sb.count - 1))).drop
          (sb.slices (sb.count - 1)).inlined_length =
        (slice_bytes s).take (N - (sb.slices (sb.count - 1)).inlined_length) ∧
      (sb1.slices sb.count).refcount = 0 ∧
      (sb1.slices sb.count).inlined_length =
        s.inlined_length - (N - (sb.slices (sb.count - 1)).inlined_length) ∧
      slice_bytes (sb1.slices sb.count) =
        (slice_bytes s).drop (N - (sb.slices (sb.count - 1)).inlined_length) ∧
      slice_bytes (sb1.slices (sb.count - 1)) ++ slice_bytes (sb1.slices sb.count) =
        slice_bytes (sb.slices (sb.count - 1)) ++ slice_bytes s ∧
      (∀ i, i < sb.count - 1 → sb1.slices i = sb.slices i) ∧
      sb1.length = sb.length + s.inlined_length := by
  have hfit : ¬ s.inlined_length + (sb.slices (sb.count - 1)).inlined_length ≤ N := by omega
  have hne : sb.count - 1 ≠ sb.count := by omega
  generalize hback : sb.slices (sb.count - 1) = back at *
  have htail : slice_bytes
      { back with
          inlined_bytes := memcpy back.inlined_bytes back.inlined_length s.inlined_bytes 0
            (N - back.inlined_length)
          inlined_length := N } =
      slice_bytes back ++ (slice_bytes s).take (N - back.inlined_length) := by
    simp only [slice_bytes, hb, hs, ne_eq, not_true_eq_false, if_false]
    rw [bytes_upto_take _ _ _ (by omega)]
    have hcopy := bytes_upto_memcpy back.inlined_bytes s.inlined_bytes back.inlined_length
      (N - back.inlined_length)
    rwa [show back.inlined_length + (N - back.inlined_length) = N by omega] at hcopy
  have hnew : slice_bytes
      { sb.slices sb.count with
          refcount := 0
          inlined_length := s.inlined_length - (N - back.inlined_length)
          inlined_bytes := memcpy (sb.slices sb.count).inlined_bytes 0 s.inlined_bytes
            (N - back.inlined_length) (s.inlined_length - (N - back.inlined_length)) } =
      (slice_bytes s).drop (N - back.inlined_length) := by
    simp only [slice_bytes, hs, ne_eq, not_true_eq_false, if_false]
    rw [bytes_upto_drop _ _ _ (by omega)]
    apply bytes_upto_congr
    intro i hi
    simp [memcpy, hi]
  have hlen : (slice_bytes back).length = back.inlined_length := by
    simp [slice_bytes, hb, bytes_upto_length]
  have hadd := add_split N sb s hv hs hc (by rw [hback]; exact hb) (by rw [hback]; exact ht)
    (by rw [hback]; exact hfit)
  rw [hback] at hadd
  refine ⟨_, hadd, rfl, ?_, ?_, ?_, ?_, ?_, ?_, ?_, ?_, ?_, rfl⟩
  · simp [store_other _ _ _ _ hne, store_same, hb]
  · simp [store_other _ _ _ _ hne, store_same]
  · simp only [store_other _ _ _ _ hne, store_same, htail]
    exact List.take_left' hlen
  · simp only [store_other _ _ _ _ hne, store_same, htail]
    exact List.drop_left' hlen
  · simp [store_same]
  · simp [store_same]
  · simp only [store_same, hnew]
  · simp only [store_other _ _ _ _ hne, store_same, htail, hnew, List.append_assoc,
      List.take_append_drop]
  · intro i hi
    have h1 : i ≠ sb.count := by omega
    have h2 : i ≠ sb.count - 1 := by omega
    simp [store_other _ _ _ _ h1, store_other _ _ _ _ h2]

/-- Witness of C5: N = 8, tail (0,1,2,3,4) of length 5, slice (5,6,7,8,9) of length 5: the tail
is filled to 8 and a new entry of length 2 is created. -/
theorem C5_split_correctness_witness :
    Valid buf5 ∧ buf5.count ≠ 0 ∧ (buf5.slices (buf5.count - 1)).refcount = 0 ∧
    (buf5.slices (buf5.count - 1)).inlined_length < 8 ∧
    (inline_slice 5 (fun i => i + 5)).refcount = 0 ∧
    (inline_slice 5 (fun i => i + 5)).inlined_length ≤ 8 ∧
    (buf5.slices (buf5.count - 1)).inlined_length +
      (inline_slice 5 (fun i => i + 5)).inlined_length > 8 ∧
    ∃ sb1, gpr_slice_buffer_add 8 buf5 (inline_slice 5 (fun i => i + 5)) = some sb1 ∧
      sb1.count = buf5.count + 1 ∧
      (sb1.slices (buf5.count - 1)).inlined_length = 8 ∧
      slice_bytes (sb1.slices (buf5.count - 1)) ++ slice_bytes (sb1.slices buf5.count) =
        slice_bytes (buf5.slices (buf5.count - 1)) ++
          slice_bytes (inline_slice 5 (fun i => i + 5)) ∧
      sb1.length = buf5.length + (inline_slice 5 (fun i => i + 5)).inlined_length := by
  refine ⟨by decide, by decide, by decide, by decide, by decide, by decide, by decide, ?_⟩
  obtain ⟨sb1, h0, h1, _, h3, _, _, _, _, _, h9, _, h11⟩ :=
    C5_split_correctness 8 buf5 (inline_slice 5 (fun i => i + 5)) (by decide) (by decide)
      (by decide) (by decide) (by decide) (by decide) (by decide)
  exact ⟨sb1, h0, h1, h3, h9, h11⟩

/-- C6, no-merge cases: for every buffer and slice s, if s is referenced, or the buffer is
empty, or the tail entry is referenced, or the tail entry is inline with length N, then add
has exactly the effect of add_indexed: it runs without abort, count increases by one, the new
last entry equals s, every previously existing entry is unchanged (and the cached length
grows by the length of s). -/
theorem C6_no_merge_cases (N : Nat) (sb : gpr_slice_buffer) (s : gpr_slice) (hv : Valid sb)
    (h : s.refcount ≠ 0 ∨ sb.count = 0 ∨ (sb.slices (sb.count - 1)).refcount ≠ 0 ∨
      ((sb.slices (sb.count - 1)).refcount = 0 ∧
        (sb.slices (sb.count - 1)).inlined_length = N)) :
    gpr_slice_buffer_add N sb s = (gpr_slice_buffer_add_indexed sb s).map Prod.fst ∧
    ∃ sb1, gpr_slice_buffer_add N sb s = some sb1 ∧
      sb1.count = sb.count + 1 ∧
      sb1.slices sb.count = s ∧
      (∀ i, i < sb.count → sb1.slices i = sb.slices i) ∧
      sb1.length = sb.length + GPR_SLICE_LENGTH s := by
  have hn : NoMerge N sb s := by
    rcases h with h | h | h | h
    · exact Or.inl h
    · exact Or.inr (Or.inl h)
    · exact Or.inr (Or.inr (Or.inl h))
    · exact Or.inr (Or.inr (Or.inr (le_of_eq h.2.symm)))
  refine ⟨add_nomerge N sb s hn, ?_⟩
  rw [add_nomerge N sb s hn, add_indexed_valid sb s hv]
  refine ⟨_, rfl, rfl, store_same _ _ _, ?_, rfl⟩
  intro i hi
  exact store_other _ _ _ _ (by omega)

/-- Witness of C6: N = 8, the tail is referenced, the slice added is inline of length 2. -/
theorem C6_no_merge_cases_witness :
    Valid buf_ref ∧
    (buf_ref.slices (buf_ref.count - 1)).refcount ≠ 0 ∧
    gpr_slice_buffer_add 8 buf_ref (inline_slice 2 (fun i => i)) =
      (gpr_slice_buffer_add_indexed buf_ref (inline_slice 2 (fun i => i))).map Prod.fst ∧
    ∃ sb1, gpr_slice_buffer_add 8 buf_ref (inline_slice 2 (fun i => i)) = some sb1 ∧
      sb1.count = buf_ref.count + 1 ∧
      sb1.slices buf_ref.count = inline_slice 2 (fun i => i) ∧
      (∀ i, i < buf_ref.count → sb1.slices i = buf_ref.slices i) ∧
      sb1.length = buf_ref.length + GPR_SLICE_LENGTH (inline_slice 2 (fun i => i)) :=
  ⟨by decide, by decide,
    C6_no_merge_cases 8 buf_ref (inline_slice 2 (fun i => i)) (by decide)
      (Or.inr (Or.inr (Or.inl (by decide))))⟩

/-- C7, capacity invariant: from `gpr_slice_buffer_init`, every finite sequence of add,
add_indexed, addn, tiny_add, pop and reset_and_unref calls runs without abort and ends in a
state with count <= capacity; and in such a state every further call runs without abort and
does not make capacity smaller than it was before the call. -/
theorem C7_capacity_invariant {W : Type} (N : Nat) (unref : gpr_slice → W → W)
    (mem : Nat → gpr_slice) (w : W) (ops : List Op) :
    ∃ st, run N unref (gpr_slice_buffer_init mem, w) ops = some st ∧
      st.1.count ≤ st.1.capacity ∧
      ∀ op, ∃ st1, step N unref st op = some st1 ∧ st.1.capacity ≤ st1.1.capacity ∧
        st1.1.count ≤ st1.1.capacity := by
  obtain ⟨st, h0, h1, _, _⟩ :=
    run_preserves N unref ops (gpr_slice_buffer_init mem, w) (init_valid mem)
  refine ⟨st, h0, h1.1, ?_⟩
  intro op
  obtain ⟨st1, g0, g1, g2, _⟩ := step_preserves N unref st op h1
  exact ⟨st1, g0, g2, g1.1⟩

/-- C8, tiny_add bounds: for every buffer and every n <= N, tiny_add runs without abort,
increases the cached length by exactly n, and returns a region of n bytes inside the inline
storage of the last entry of the new state: the slot returned is the last one, it is inline,
and returned offset + n equals its length, which is at most N. -/
theorem C8_tiny_add_bounds (N : Nat) (sb : gpr_slice_buffer) (n : Nat) (hv : Valid sb)
    (hn : n ≤ N) :
    ∃ sb1 slot off, gpr_slice_buffer_tiny_add N sb n = some (sb1, (slot, off)) ∧
      sb1.length = sb.length + n ∧
      sb1.count ≠ 0 ∧ slot = sb1.count - 1 ∧
      (sb1.slices slot).refcount = 0 ∧
      off + n = (sb1.slices slot).inlined_length ∧
      (sb1.slices slot).inlined_length ≤ N := by
  by_cases hf : TinyFits N sb n
  · refine ⟨_, _, _, tiny_add_fits N sb n hf, rfl, hf.1, rfl, ?_, ?_, ?_⟩
    · simp [store_same, hf.2.1]
    · simp [store_same]
    · simp only [store_same]
      exact hf.2.2
  · refine ⟨_, _, _, tiny_add_fresh N sb n hv hf, rfl, by simp, by simp, ?_, ?_, ?_⟩
    · simp [store_same]
    · simp [store_same]
    · simp only [store_same]
      exact hn

/-- Witness of C8: N = 8, tail inline of length 5, tiny_add(3) reserves bytes 5..7 of the
tail. -/
theorem C8_tiny_add_bounds_witness :
    Valid buf5 ∧ 3 ≤ 8 ∧
    ∃ sb1 slot off, gpr_slice_buffer_tiny_add 8 buf5 3 = some (sb1, (slot, off)) ∧
      sb1.length = buf5.length + 3 ∧
      sb1.count ≠ 0 ∧ slot = sb1.count - 1 ∧
      (sb1.slices slot).refcount = 0 ∧
      off + 3 = (sb1.slices slot).inlined_length ∧
      (sb1.slices slot).inlined_length ≤ 8 :=
  ⟨by decide, by decide, C8_tiny_add_bounds 8 buf5 3 (by decide) (by decide)⟩

theorem unref_loop_foldl {W : Type} (unref : gpr_slice → W → W) (slices : Nat → gpr_slice)
    (n : Nat) (w : W) :
    unref_loop unref slices n w = (entries slices n).foldl (fun v s => unref s v) w := by
  induction n with
  | zero => rfl
  | succ k ih => simp [unref_loop, entries, List.range_succ, ih]

theorem unref_loop_held (slices : Nat → gpr_slice) (n : Nat) (rc : Nat → Int) (h : Nat) :
    unref_loop gpr_slice_unref slices n rc h = rc h - (held slices h n : Int) := by
  induction n with
  | zero => simp [unref_loop, held]
  | succ k ih =>
    simp only [unref_loop, held, gpr_slice_unref]
    by_cases h1 : (slices k).refcount ≠ 0
    · by_cases h2 : h = (slices k).refcount
      · subst h2
        simp only [h1, ih, if_true, and_self, ne_eq, not_false_eq_true]
        push_cast
        ring
      · have h3 : ¬ (slices k).refcount = h := fun e => h2 e.symm
        simp [h1, h2, h3, ih]
    · simp [h1, ih]

/-- C9, reset_and_unref: for every buffer, after reset_and_unref count is 0 and length is 0,
capacity and the backing array are as before, and `gpr_slice_unref` has been called exactly
once for each entry held at indices 0..count-1, in that order: whatever the release does,
the state of the slice module is the one obtained by releasing the held entries one after
the other; the log of the calls is the list of the held entries; and with the release of
the spec (decrement for a referenced slice, nothing for an inline one) the reference count
of every control block has gone down by the number of held entries that reference it. -/
theorem C9_reset_and_unref {W : Type} (unref : gpr_slice → W → W) (sb : gpr_slice_buffer)
    (w : W) (rc : Nat → Int) :
    (gpr_slice_buffer_reset_and_unref unref sb w).1.count = 0 ∧
    (gpr_slice_buffer_reset_and_unref unref sb w).1.length = 0 ∧
    (gpr_slice_buffer_reset_and_unref unref sb w).1.capacity = sb.capacity ∧
    (gpr_slice_buffer_reset_and_unref unref sb w).1.slices = sb.slices ∧
    (gpr_slice_buffer_reset_and_unref unref sb w).2 =
      (entries sb.slices sb.count).foldl (fun v s => unref s v) w ∧
    (gpr_slice_buffer_reset_and_unref (fun s log => log ++ [s]) sb []).2 =
      entries sb.slices sb.count ∧
    ∀ h, (gpr_slice_buffer_reset_and_unref gpr_slice_unref sb rc).2 h =
      rc h - (held sb.slices h sb.count : Int) := by
  refine ⟨rfl, rfl, rfl, rfl, unref_loop_foldl unref sb.slices sb.count w, ?_,
    fun h => unref_loop_held sb.slices sb.count rc h⟩
  show unref_loop (fun s log => log ++ [s]) sb.slices sb.count [] = _
  rw [unref_loop_foldl]
  generalize entries sb.slices sb.count = l
  induction l using List.reverseRecOn with
  | nil => rfl
  | append_singleton l a ih => simp [List.foldl_append, ih]

/-- C10, add_indexed: for every buffer with count = c and every slice s, add_indexed runs
without abort and returns c; afterwards count is c + 1, the entry at index c equals s, the
cached length has grown by the length of s, every entry at an index below c is unchanged,
and capacity is unchanged unless c was equal to it, in which case it is GROW(capacity). -/
theorem C10_add_indexed (sb : gpr_slice_buffer) (s : gpr_slice) (hv : Valid sb) :
    ∃ sb1, gpr_slice_buffer_add_indexed sb s = some (sb1, sb.count) ∧
      sb1.count = sb.count + 1 ∧
      sb1.slices sb.count = s ∧
      sb1.length = sb.length + GPR_SLICE_LENGTH s ∧
      (∀ i, i < sb.count → sb1.slices i = sb.slices i) ∧
      sb1.capacity = (if sb.count = sb.capacity then GROW sb.capacity else sb.capacity) := by
  refine ⟨_, add_indexed_valid sb s hv, rfl, store_same _ _ _, rfl, ?_, rfl⟩
  intro i hi
  exact store_other _ _ _ _ (by omega)

/-- Witness of C10: a full buffer (count = capacity = 4) and a referenced slice; the call
grows the backing array to 6 slots. -/
theorem C10_add_indexed_witness :
    Valid buf_full ∧
    ∃ sb1, gpr_slice_buffer_add_indexed buf_full (referenced_slice 7 3 (fun i => i)) =
        some (sb1, buf_full.count) ∧
      sb1.count = buf_full.count + 1 ∧
      sb1.slices buf_full.count = referenced_slice 7 3 (fun i => i) ∧
      sb1.length = buf_full.length + GPR_SLICE_LENGTH (referenced_slice 7 3 (fun i => i)) ∧
      (∀ i, i < buf_full.count → sb1.slices i = buf_full.slices i) ∧
      sb1.capacity =
        (if buf_full.count = buf_full.capacity then GROW buf_full.capacity
          else buf_full.capacity) :=
  ⟨by decide, C10_add_indexed buf_full (referenced_slice 7 3 (fun i => i)) (by decide)⟩

/-- C11, merge sub-case in an arbitrary buffer: for every non-empty buffer whose tail is
inline with length t < N and every inline slice s with t + length(s) <= N, add runs without
abort and creates no new entry (count and capacity unchanged); the tail stays inline, its
length becomes t + length(s), its bytes become its old t bytes followed by the bytes of s;
every other entry is unchanged and the cached length grows by length(s). -/
theorem C11_merge_subcase (N : Nat) (sb : gpr_slice_buffer) (s : gpr_slice)
    (hc : sb.count ≠ 0)
    (hb : (sb.slices (sb.count - 1)).refcount = 0)
    (ht : (sb.slices (sb.count - 1)).inlined_length < N)
    (hs : s.refcount = 0)
    (hfit : (sb.slices (sb.count - 1)).inlined_length + s.inlined_length ≤ N) :
    ∃ sb1, gpr_slice_buffer_add N sb s = some sb1 ∧
      sb1.count = sb.count ∧ sb1.capacity = sb.capacity ∧
      (sb1.slices (sb.count - 1)).refcount = 0 ∧
      (sb1.slices (sb.count - 1)).inlined_length =
        (sb.slices (sb.count - 1)).inlined_length + s.inlined_length ∧
      slice_bytes (sb1.slices (sb.count - 1)) =
        slice_bytes (sb.slices (sb.count - 1)) ++ slice_bytes s ∧
      (∀ i, i ≠ sb.count - 1 → sb1.slices i = sb.slices i) ∧
      sb1.length = sb.length + s.inlined_length := by
  refine ⟨_, add_merge N sb s hs hc hb ht (by omega), rfl, rfl, ?_, ?_, ?_, ?_, rfl⟩
  · simp [store_same, hb]
  · simp [store_same]
  · simp only [store_same, slice_bytes, hb, hs, ne_eq, not_true_eq_false, if_false]
    exact bytes_upto_memcpy _ _ _ _
  · intro i hi
    exact store_other _ _ _ _ hi

/-- Witness of C11: N = 8, tail (0,1,2,3,4) of length 5, slice of length 3. -/
theorem C11_merge_subcase_witness :
    ∃ sb1, gpr_slice_buffer_add 8 buf5 (inline_slice 3 (fun i => i + 5)) = some sb1 ∧
      sb1.count = buf5.count ∧ sb1.capacity = buf5.capacity ∧
      (sb1.slices (buf5.count - 1)).refcount = 0 ∧
      (sb1.slices (buf5.count - 1)).inlined_length =
        (buf5.slices (buf5.count - 1)).inlined_length +
          (inline_slice 3 (fun i => i + 5)).inlined_length ∧
      slice_bytes (sb1.slices (buf5.count - 1)) =
        slice_bytes (buf5.slices (buf5.count - 1)) ++
          slice_bytes (inline_slice 3 (fun i => i + 5)) ∧
      (∀ i, i ≠ buf5.count - 1 → sb1.slices i = buf5.slices i) ∧
      sb1.length = buf5.length + (inline_slice 3 (fun i => i + 5)).inlined_length :=
  C11_merge_subcase 8 buf5 (inline_slice 3 (fun i => i + 5)) (by decide) (by decide)
    (by decide) (by decide) (by decide)

/-- C12, tiny_add policy: for every buffer and n <= N, tiny_add runs without abort; if the
buffer is non-empty and its tail is inline with length t such that t + n <= N, count is
unchanged, the tail length becomes t + n, the region returned starts at offset t of the tail
and no other entry changes; in every other case exactly one new inline entry of length n is
appended, the region returned starts at offset 0 of that entry, and all existing entries are
unchanged. -/
theorem C12_tiny_add_policy (N : Nat) (sb : gpr_slice_buffer) (n : Nat) (hv : Valid sb)
    (_hn : n ≤ N) :
    ((sb.count ≠ 0 ∧ (sb.slices (sb.count - 1)).refcount = 0 ∧
        (sb.slices (sb.count - 1)).inlined_length + n ≤ N) →
      ∃ sb1, gpr_slice_buffer_tiny_add N sb n =
          some (sb1, (sb.count - 1, (sb.slices (sb.count - 1)).inlined_length)) ∧
        sb1.count = sb.count ∧
        (sb1.slices (sb.count - 1)).refcount = 0 ∧
        (sb1.slices (sb.count - 1)).inlined_length =
          (sb.slices (sb.count - 1)).inlined_length + n ∧
        (sb1.slices (sb.count - 1)).inlined_bytes = (sb.slices (sb.count - 1)).inlined_bytes ∧
        ∀ i, i ≠ sb.count - 1 → sb1.slices i = sb.slices i) ∧
    (¬ (sb.count ≠ 0 ∧ (sb.slices (sb.count - 1)).refcount = 0 ∧
        (sb.slices (sb.count - 1)).inlined_length + n ≤ N) →
      ∃ sb1, gpr_slice_buffer_tiny_add N sb n = some (sb1, (sb.count, 0)) ∧
        sb1.count = sb.count + 1 ∧
        (sb1.slices sb.count).refcount = 0 ∧
        (sb1.slices sb.count).inlined_length = n ∧
        ∀ i, i < sb.count → sb1.slices i = sb.slices i) := by
  constructor
  · intro hf
    refine ⟨_, tiny_add_fits N sb n hf, rfl, ?_, ?_, ?_, ?_⟩
    · simp [store_same, hf.2.1]
    · simp [store_same]
    · simp [store_same]
    · intro i hi
      exact store_other _ _ _ _ hi
  · intro hf
    refine ⟨_, tiny_add_fresh N sb n hv hf, rfl, ?_, ?_, ?_⟩
    · simp [store_same]
    · simp [store_same]
    · intro i hi
      exact store_other _ _ _ _ (by omega)

/-- Witness of C12: N = 8, tail inline of length 5; tiny_add(5) does not fit and appends a new
entry of length 5. -/
theorem C12_tiny_add_policy_witness :
    Valid buf5 ∧ 5 ≤ 8 ∧
    ¬ (buf5.count ≠ 0 ∧ (buf5.slices (buf5.count - 1)).refcount = 0 ∧
        (buf5.slices (buf5.count - 1)).inlined_length + 5 ≤ 8) ∧
    ∃ sb1, gpr_slice_buffer_tiny_add 8 buf5 5 = some (sb1, (buf5.count, 0)) ∧
      sb1.count = buf5.count + 1 ∧
      (sb1.slices buf5.count).refcount = 0 ∧
      (sb1.slices buf5.count).inlined_length = 5 ∧
      ∀ i, i < buf5.count → sb1.slices i = buf5.slices i :=
  ⟨by decide, by decide, by decide,
    (C12_tiny_add_policy 8 buf5 5 (by decide) (by decide)).2 (by decide)⟩

/-- C13, pop: for every buffer with count > 0, pop decrements count by one, subtracts the
length of the removed last entry from the cached length and leaves capacity and the backing
array (so all remaining entries) unchanged; for every buffer with count = 0, pop leaves the
whole state unchanged; in both cases pop releases nothing: as a call of the interface it
leaves the state of the slice module as it was. -/
theorem C13_pop {W : Type} (N : Nat) (unref : gpr_slice → W → W) (sb : gpr_slice_buffer)
    (w : W) :
    step N unref (sb, w) Op.pop = some (gpr_slice_buffer_pop sb, w) ∧
    (sb.count ≠ 0 →
      (gpr_slice_buffer_pop sb).count = sb.count - 1 ∧
      (gpr_slice_buffer_pop sb).length =
        sb.length - GPR_SLICE_LENGTH (sb.slices (sb.count - 1)) ∧
      (gpr_slice_buffer_pop sb).capacity = sb.capacity ∧
      (gpr_slice_buffer_pop sb).slices = sb.slices) ∧
    (sb.count = 0 → gpr_slice_buffer_pop sb = sb) := by
  refine ⟨rfl, ?_, ?_⟩
  · intro hc
    simp [gpr_slice_buffer_pop, hc]
  · intro hc
    simp [gpr_slice_buffer_pop, hc]

/-- Witness of C13: pop of the buffer with one inline entry of length 5. -/
theorem C13_pop_witness :
    buf5.count ≠ 0 ∧
    (gpr_slice_buffer_pop buf5).count = buf5.count - 1 ∧
    (gpr_slice_buffer_pop buf5).length =
      buf5.length - GPR_SLICE_LENGTH (buf5.slices (buf5.count - 1)) ∧
    (gpr_slice_buffer_pop buf5).capacity = buf5.capacity ∧
    (gpr_slice_buffer_pop buf5).slices = buf5.slices :=
  ⟨by decide, (C13_pop 8 unref_unit buf5 ()).2.1 (by decide)⟩

theorem entries_succ (s : Nat → gpr_slice) (n : Nat) :
    entries s (n + 1) = entries s n ++ [s n] := by
  simp [entries, List.range_succ]

theorem addn_eq_fold (N : Nat) (sb : gpr_slice_buffer) (s : Nat → gpr_slice) (n : Nat) :
    gpr_slice_buffer_addn N sb s n = addn_fold N sb (entries s n) := by
  induction n with
  | zero => rfl
  | succ k ih =>
    rw [entries_succ]
    unfold addn_fold at ih ⊢
    rw [List.foldl_append, ← ih]
    simp only [gpr_slice_buffer_addn, List.foldl_cons, List.foldl_nil]
    cases gpr_slice_buffer_addn N sb s k <;> rfl

theorem entries_of_list (l : List gpr_slice) (d : gpr_slice) (n : Nat) (h : n ≤ l.length) :
    entries (fun i => l.getD i d) n = l.take n := by
  induction n with
  | zero => simp [entries]
  | succ k ih =>
    have hk : k < l.length := by omega
    rw [entries_succ, ih (by omega), List.take_succ]
    simp [List.getD, List.getElem?_eq_getElem hk]

/-- C14, addn: for every buffer, every array of slices s and every n, addn yields exactly the
result of the left fold of add over s[0], s[1], ..., s[n-1] in that order (the same state, or
the same abort); with n = 0 the buffer is unchanged; and for an array given as a list l with
n <= its size the slices folded over are the first n elements of l. -/
theorem C14_addn (N : Nat) (sb : gpr_slice_buffer) (s : Nat → gpr_slice) (n : Nat) :
    gpr_slice_buffer_addn N sb s n = addn_fold N sb (entries s n) ∧
    gpr_slice_buffer_addn N sb s 0 = some sb ∧
    ∀ (l : List gpr_slice) (d : gpr_slice), n ≤ l.length →
      gpr_slice_buffer_addn N sb (fun i => l.getD i d) n = addn_fold N sb (l.take n) := by
  refine ⟨addn_eq_fold N sb s n, rfl, ?_⟩
  intro l d h
  rw [addn_eq_fold, entries_of_list l d n h]

/-- Witness of C14: N = 8, a buffer with an inline tail of length 5, and the first two of
three inline slices given as a list. -/
theorem C14_addn_witness :
    2 ≤ [inline_slice 2 (fun i => i), inline_slice 3 (fun i => i),
          inline_slice 1 (fun i => i)].length ∧
    gpr_slice_buffer_addn 8 buf5
        (fun i => [inline_slice 2 (fun i => i), inline_slice 3 (fun i => i),
          inline_slice 1 (fun i => i)].getD i (inline_slice 0 (fun _ => 0))) 2 =
      addn_fold 8 buf5
        ([inline_slice 2 (fun i => i), inline_slice 3 (fun i => i),
          inline_slice 1 (fun i => i)].take 2) :=
  ⟨by decide,
    (C14_addn 8 buf5 (fun _ => inline_slice 0 (fun _ => 0)) 2).2.2 _ _ (by decide)⟩

/-- C15, growth assertion: from `gpr_slice_buffer_init` (capacity 4), every finite sequence
of calls runs without abort and ends in a state with capacity at least 4 in which, whenever
count = capacity (a growth step would run), the new capacity GROW(capacity) is strictly
greater than count, so that the growth block and every further call pass the assertion;
GROW(c) > c holds for every c >= 2, while GROW(1) = 1. -/
theorem C15_growth_assertion {W : Type} (N : Nat) (unref : gpr_slice → W → W)
    (mem : Nat → gpr_slice) (w : W) (ops : List Op) :
    (∃ st, run N unref (gpr_slice_buffer_init mem, w) ops = some st ∧
      INITIAL_CAPACITY ≤ st.1.capacity ∧
      (st.1.count = st.1.capacity → st.1.count < GROW st.1.capacity) ∧
      (∃ sb1, grow_if_full st.1 = some sb1) ∧
      ∀ op, ∃ st1, step N unref st op = some st1) ∧
    (∀ c, 2 ≤ c → c < GROW c) ∧ GROW 1 = 1 := by
  refine ⟨?_, GROW_gt, rfl⟩
  obtain ⟨st, h0, h1, _, _⟩ :=
    run_preserves N unref ops (gpr_slice_buffer_init mem, w) (init_valid mem)
  refine ⟨st, h0, h1.2, ?_, ⟨_, grow_if_full_valid st.1 h1⟩, ?_⟩
  · intro hc
    have h2 := h1.2
    unfold INITIAL_CAPACITY at h2
    rw [hc]
    exact GROW_gt _ (by omega)
  · intro op
    obtain ⟨st1, g0, _⟩ := step_preserves N unref st op h1
    exact ⟨st1, g0⟩

/-- Witness of C15: after four add_indexed calls the buffer is full (count = capacity = 4) and
the growth step of the next call yields GROW(4) = 6 > 4. -/
theorem C15_growth_assertion_witness :
    ∃ st, run 8 unref_unit (gpr_slice_buffer_init zero_mem, ()) four_adds = some st ∧
      st.1.count = st.1.capacity ∧ st.1.count < GROW st.1.capacity := by
  obtain ⟨⟨st, h0, _, h2, _⟩, _⟩ := C15_growth_assertion 8 unref_unit zero_mem () four_adds
  have hfull : ∃ st0, run 8 unref_unit (gpr_slice_buffer_init zero_mem, ()) four_adds =
      some st0 ∧ st0.1.count = st0.1.capacity := ⟨_, rfl, rfl⟩
  obtain ⟨st0, g0, g1⟩ := hfull
  rw [h0] at g0
  cases g0
  exact ⟨st, h0, g1, h2 g1⟩

theorem growth_rule_new (sb sb1 : gpr_slice_buffer) (hv : Valid sb)
    (hc : sb1.count = sb.count + 1) (hcap : sb1.capacity = grown_capacity sb) :
    GrowthRule sb sb1 := by
  obtain ⟨h1, h2⟩ := hv
  unfold INITIAL_CAPACITY at h2
  unfold GrowthRule
  rw [hcap, hc]
  unfold grown_capacity GROW
  by_cases hf : sb.count = sb.capacity
  · simp only [hf, if_true, and_self, iff_true, ne_eq]
    exact ⟨by omega, fun _ => trivial⟩
  · simp [hf]

theorem growth_rule_same (sb sb1 : gpr_slice_buffer)
    (hc : sb1.count = sb.count) (hcap : sb1.capacity = sb.capacity) :
    GrowthRule sb sb1 := by
  unfold GrowthRule
  rw [hcap, hc]
  simp

/-- C16, growth rule: for every buffer, each of add, add_indexed and tiny_add runs without
abort, and capacity differs after the call if and only if the call created a new entry while
count = capacity held before it, in which case the new capacity is floor(3 * capacity / 2);
otherwise (merges into the tail included) capacity is unchanged; pop and reset_and_unref
never change capacity. -/
theorem C16_growth_rule {W : Type} (N : Nat) (unref : gpr_slice → W → W)
    (sb : gpr_slice_buffer) (s : gpr_slice) (n : Nat) (w : W) (hv : Valid sb) :
    (∃ sb1, gpr_slice_buffer_add N sb s = some sb1 ∧ GrowthRule sb sb1) ∧
    (∃ r, gpr_slice_buffer_add_indexed sb s = some r ∧ GrowthRule sb r.1) ∧
    (∃ r, gpr_slice_buffer_tiny_add N sb n = some r ∧ GrowthRule sb r.1) ∧
    (gpr_slice_buffer_pop sb).capacity = sb.capacity ∧
    (gpr_slice_buffer_reset_and_unref unref sb w).1.capacity = sb.capacity := by
  have hidx : ∃ r, gpr_slice_buffer_add_indexed sb s = some r ∧ GrowthRule sb r.1 :=
    ⟨_, add_indexed_valid sb s hv, growth_rule_new sb _ hv rfl rfl⟩
  refine ⟨?_, hidx, ?_, ?_, rfl⟩
  · by_cases hn : NoMerge N sb s
    · obtain ⟨r, hr, hg⟩ := hidx
      exact ⟨r.1, by rw [add_nomerge N sb s hn, hr]; rfl, hg⟩
    · unfold NoMerge at hn
      push_neg at hn
      obtain ⟨hs, hc, hb, ht⟩ := hn
      by_cases hfit : s.inlined_length + (sb.slices (sb.count - 1)).inlined_length ≤ N
      · exact ⟨_, add_merge N sb s hs hc hb ht hfit, growth_rule_same sb _ rfl rfl⟩
      · exact ⟨_, add_split N sb s hv hs hc hb ht hfit, growth_rule_new sb _ hv rfl rfl⟩
  · by_cases hf : TinyFits N sb n
    · exact ⟨_, tiny_add_fits N sb n hf, growth_rule_same sb _ rfl rfl⟩
    · exact ⟨_, tiny_add_fresh N sb n hv hf, growth_rule_new sb _ hv rfl rfl⟩
  · unfold gpr_slice_buffer_pop
    split <;> rfl

/-- Witness of C16: a full buffer (count = capacity = 4); add of a referenced slice creates an
entry and capacity becomes 6. -/
theorem C16_growth_rule_witness :
    Valid buf_full ∧
    ∃ sb1, gpr_slice_buffer_add 8 buf_full (referenced_slice 7 3 (fun i => i)) = some sb1 ∧
      GrowthRule buf_full sb1 ∧ sb1.capacity = 6 := by
  refine ⟨by decide, ?_⟩
  obtain ⟨⟨sb1, h0, h1⟩, _⟩ :=
    C16_growth_rule 8 unref_unit buf_full (referenced_slice 7 3 (fun i => i)) 0 () (by decide)
  have hrun : ∃ sb0, gpr_slice_buffer_add 8 buf_full (referenced_slice 7 3 (fun i => i)) =
      some sb0 ∧ sb0.capacity = 6 := ⟨_, rfl, rfl⟩
  obtain ⟨sb0, g0, g1⟩ := hrun
  rw [h0] at g0
  cases g0
  exact ⟨sb1, h0, h1, g1⟩

theorem merge_tail_bytes (back s : gpr_slice) (hb : back.refcount = 0) (hs : s.refcount = 0) :
    slice_bytes
      { back with
          inlined_bytes :=
            memcpy back.inlined_bytes back.inlined_length s.inlined_bytes 0 s.inlined_length
          inlined_length := back.inlined_length + s.inlined_length } =
      slice_bytes back ++ slice_bytes s := by
  simp only [slice_bytes, hb, hs, ne_eq, not_true_eq_false, if_false]
  exact bytes_upto_memcpy _ _ _ _

theorem split_tail_bytes (N : Nat) (back s : gpr_slice) (hb : back.refcount = 0)
    (hs : s.refcount = 0) (ht : back.inlined_length < N)
    (hover : ¬ s.inlined_length + back.inlined_length ≤ N) :
    slice_bytes
      { back with
          inlined_bytes := memcpy back.inlined_bytes back.inlined_length s.inlined_bytes 0
            (N - back.inlined_length)
          inlined_length := N } =
      slice_bytes back ++ (slice_bytes s).take (N - back.inlined_length) := by
  simp only [slice_bytes, hb, hs, ne_eq, not_true_eq_false, if_false]
  rw [bytes_upto_take _ _ _ (by omega)]
  have hcopy := bytes_upto_memcpy back.inlined_bytes s.inlined_bytes back.inlined_length
    (N - back.inlined_length)
  rwa [show back.inlined_length + (N - back.inlined_length) = N by omega] at hcopy

theorem split_new_bytes (N : Nat) (back slot s : gpr_slice) (hs : s.refcount = 0)
    (ht : back.inlined_length < N) (hover : ¬ s.inlined_length + back.inlined_length ≤ N) :
    slice_bytes
      { slot with
          refcount := 0
          inlined_length := s.inlined_length - (N - back.inlined_length)
          inlined_bytes := memcpy slot.inlined_bytes 0 s.inlined_bytes
            (N - back.inlined_length) (s.inlined_length - (N - back.inlined_length)) } =
      (slice_bytes s).drop (N - back.inlined_length) := by
  simp only [slice_bytes, hs, ne_eq, not_true_eq_false, if_false]
  rw [bytes_upto_drop _ _ _ (by omega)]
  apply bytes_upto_congr
  intro i hi
  simp [memcpy, hi]

theorem add_stream (N : Nat) (sb : gpr_slice_buffer) (s : gpr_slice) (hv : Valid sb) :
    ∃ sb1, gpr_slice_buffer_add N sb s = some sb1 ∧ Valid sb1 ∧
      slices_bytes sb1.slices sb1.count = slices_bytes sb.slices sb.count ++ slice_bytes s ∧
      sb1.length = sb.length + GPR_SLICE_LENGTH s := by
  obtain ⟨sb0, e0, hv0, _, _⟩ := add_preserves N sb s hv
  by_cases hn : NoMerge N sb s
  · refine ⟨_, by rw [add_nomerge N sb s hn, add_indexed_valid sb s hv]; rfl, ?_, ?_, rfl⟩
    · rw [add_nomerge N sb s hn, add_indexed_valid sb s hv] at e0
      cases e0
      exact hv0
    · exact slices_bytes_tail _ _ _
  · unfold NoMerge at hn
    push_neg at hn
    obtain ⟨hs, hc, hb, ht⟩ := hn
    obtain ⟨m, hm⟩ : ∃ m, sb.count = m + 1 := ⟨sb.count - 1, by omega⟩
    have hlen : GPR_SLICE_LENGTH s = s.inlined_length := by simp [GPR_SLICE_LENGTH, hs]
    by_cases hfit : s.inlined_length + (sb.slices (sb.count - 1)).inlined_length ≤ N
    · have e1 := add_merge N sb s hs hc hb ht hfit
      refine ⟨_, e1, ?_, ?_, by rw [hlen]⟩
      · rw [e1] at e0
        cases e0
        exact hv0
      · simp only [hm, Nat.add_sub_cancel] at hb ⊢
        rw [slices_bytes_tail, merge_tail_bytes _ _ hb hs]
        simp [slices_bytes]
    · have e1 := add_split N sb s hv hs hc hb ht hfit
      refine ⟨_, e1, ?_, ?_, by rw [hlen]⟩
      · rw [e1] at e0
        cases e0
        exact hv0
      · simp only [hm, Nat.add_sub_cancel] at hb ht hfit ⊢
        rw [slices_bytes_tail, slices_bytes_tail, split_tail_bytes N _ _ hb hs ht hfit,
          split_new_bytes N _ _ _ hs ht hfit]
        simp [slices_bytes]

theorem addn_stream (N : Nat) (sb : gpr_slice_buffer) (ss : Nat → gpr_slice) (n : Nat)
    (hv : Valid sb) :
    ∃ sb1, gpr_slice_buffer_addn N sb ss n = some sb1 ∧ Valid sb1 ∧
      slices_bytes sb1.slices sb1.count = slices_bytes sb.slices sb.count ++ slices_bytes ss n ∧
      sb1.length = sb.length + slices_length ss n := by
  induction n with
  | zero => exact ⟨sb, rfl, hv, by simp [slices_bytes], rfl⟩
  | succ k ih =>
    obtain ⟨sb1, h0, h1, h2, h3⟩ := ih
    obtain ⟨sb2, g0, g1, g2, g3⟩ := add_stream N sb1 (ss k) h1
    refine ⟨sb2, by simp [gpr_slice_buffer_addn, h0, g0], g1, ?_, ?_⟩
    · rw [g2, h2]
      simp [slices_bytes]
    · rw [g3, h3]
      simp only [slices_length]
      omega

/-- C17, the logical byte stream is preserved by append: for every buffer and every slice s
(referenced, or inline with length <= N), add runs without abort and the concatenation of the
bytes of the entries 0..count-1 after the call is the concatenation before the call followed
by the bytes of s, whichever of the merge, split or new-entry paths is taken; and addn of the
slices ss[0..n-1] (each referenced, or inline with length <= N) appends the concatenation of
their bytes in order. -/
theorem C17_stream_preserved (N : Nat) (sb : gpr_slice_buffer) (s : gpr_slice)
    (ss : Nat → gpr_slice) (n : Nat) (hv : Valid sb)
    (_hs : s.refcount = 0 → s.inlined_length ≤ N)
    (_hss : ∀ i, i < n → (ss i).refcount = 0 → (ss i).inlined_length ≤ N) :
    (∃ sb1, gpr_slice_buffer_add N sb s = some sb1 ∧
      slices_bytes sb1.slices sb1.count = slices_bytes sb.slices sb.count ++ slice_bytes s) ∧
    (∃ sb2, gpr_slice_buffer_addn N sb ss n = some sb2 ∧
      slices_bytes sb2.slices sb2.count =
        slices_bytes sb.slices sb.count ++ slices_bytes ss n) := by
  obtain ⟨sb1, h0, _, h2, _⟩ := add_stream N sb s hv
  obtain ⟨sb2, g0, _, g2, _⟩ := addn_stream N sb ss n hv
  exact ⟨⟨sb1, h0, h2⟩, ⟨sb2, g0, g2⟩⟩

/-- Witness of C17: N = 8, tail (0,1,2,3,4) of length 5; add of a slice of length 5 (split
path), and addn of two slices of lengths 2 and 3. -/
theorem C17_stream_preserved_witness :
    Valid buf5 ∧
    (∃ sb1, gpr_slice_buffer_add 8 buf5 (inline_slice 5 (fun i => i + 5)) = some sb1 ∧
      slices_bytes sb1.slices sb1.count =
        slices_bytes buf5.slices buf5.count ++ slice_bytes (inline_slice 5 (fun i => i + 5))) ∧
    (∃ sb2, gpr_slice_buffer_addn 8 buf5 (fun i => inline_slice (i + 2) (fun j => j)) 2 =
        some sb2 ∧
      slices_bytes sb2.slices sb2.count =
        slices_bytes buf5.slices buf5.count ++
          slices_bytes (fun i => inline_slice (i + 2) (fun j => j)) 2) :=
  ⟨by decide,
    C17_stream_preserved 8 buf5 (inline_slice 5 (fun i => i + 5))
      (fun i => inline_slice (i + 2) (fun j => j)) 2 (by decide)
      (fun _ => by decide)
      (fun i hi _ => by
        show i + 2 ≤ 8
        omega)⟩

theorem add_inline_bound (N : Nat) (sb : gpr_slice_buffer) (s : gpr_slice) (hv : Valid sb)
    (hb : InlineBound N sb) (hs : s.refcount = 0 → s.inlined_length ≤ N) :
    ∃ sb1, gpr_slice_buffer_add N sb s = some sb1 ∧ InlineBound N sb1 := by
  by_cases hn : NoMerge N sb s
  · refine ⟨_, by rw [add_nomerge N sb s hn, add_indexed_valid sb s hv]; rfl, ?_⟩
    intro i hi hr
    by_cases hic : i = sb.count
    · subst hic
      simp only [Option.map, store_same] at hr ⊢
      exact hs hr
    · simp only [Option.map, store_other _ _ _ _ hic] at hr ⊢
      exact hb i (by simp only [Option.map] at hi; omega) hr
  · unfold NoMerge at hn
    push_neg at hn
    obtain ⟨hs0, hc, hb0, ht⟩ := hn
    have hsN := hs hs0
    by_cases hfit : s.inlined_length + (sb.slices (sb.count - 1)).inlined_length ≤ N
    · refine ⟨_, add_merge N sb s hs0 hc hb0 ht hfit, ?_⟩
      intro i hi hr
      by_cases hic : i = sb.count - 1
      · subst hic
        simp only [store_same]
        omega
      · simp only [store_other _ _ _ _ hic] at hr ⊢
        exact hb i hi hr
    · refine ⟨_, add_split N sb s hv hs0 hc hb0 ht hfit, ?_⟩
      intro i hi hr
      by_cases hic : i = sb.count
      · subst hic
        simp only [store_same]
        omega
      · by_cases hic1 : i = sb.count - 1
        · subst hic1
          simp only [store_other _ _ _ _ hic, store_same]
          exact le_refl N
        · simp only [store_other _ _ _ _ hic, store_other _ _ _ _ hic1] at hr ⊢
          exact hb i (by simp only at hi; omega) hr

theorem tiny_add_inline_bound (N : Nat) (sb : gpr_slice_buffer) (n : Nat) (hv : Valid sb)
    (hb : InlineBound N sb) (hn : n ≤ N) :
    ∃ r, gpr_slice_buffer_tiny_add N sb n = some r ∧ InlineBound N r.1 := by
  by_cases hf : TinyFits N sb n
  · refine ⟨_, tiny_add_fits N sb n hf, ?_⟩
    intro i hi hr
    by_cases hic : i = sb.count - 1
    · subst hic
      simp only [store_same]
      exact hf.2.2
    · simp only [store_other _ _ _ _ hic] at hr ⊢
      exact hb i hi hr
  · refine ⟨_, tiny_add_fresh N sb n hv hf, ?_⟩
    intro i hi hr
    by_cases hic : i = sb.count
    · subst hic
      simp only [store_same]
      exact hn
    · simp only [store_other _ _ _ _ hic] at hr ⊢
      exact hb i (by simp only at hi; omega) hr

theorem pop_inline_bound (N : Nat) (sb : gpr_slice_buffer) (hb : InlineBound N sb) :
    InlineBound N (gpr_slice_buffer_pop sb) := by
  unfold gpr_slice_buffer_pop
  by_cases hc : sb.count = 0
  · simp only [hc, ne_eq, not_true_eq_false, if_false]
    exact hb
  · simp only [hc, ne_eq, not_false_eq_true, if_true]
    intro i hi hr
    exact hb i (by simp only at hi; omega) hr

/-- C18, the inline length bound is preserved: if every inline entry of the buffer has length
at most N, then add of a slice that is referenced or inline of length at most N, tiny_add of
n <= N bytes and pop all run without abort and leave a buffer in which every inline entry at
indices 0..count-1 has length at most N. -/
theorem C18_inline_bound (N : Nat) (sb : gpr_slice_buffer) (s : gpr_slice) (n : Nat)
    (hv : Valid sb) (hb : InlineBound N sb) (hs : s.refcount = 0 → s.inlined_length ≤ N)
    (hn : n ≤ N) :
    (∃ sb1, gpr_slice_buffer_add N sb s = some sb1 ∧
      ∀ i, i < sb1.count → (sb1.slices i).refcount = 0 → (sb1.slices i).inlined_length ≤ N) ∧
    (∃ r, gpr_slice_buffer_tiny_add N sb n = some r ∧
      ∀ i, i < r.1.count → (r.1.slices i).refcount = 0 → (r.1.slices i).inlined_length ≤ N) ∧
    (∀ i, i < (gpr_slice_buffer_pop sb).count →
      ((gpr_slice_buffer_pop sb).slices i).refcount = 0 →
      ((gpr_slice_buffer_pop sb).slices i).inlined_length ≤ N) :=
  ⟨add_inline_bound N sb s hv hb hs, tiny_add_inline_bound N sb n hv hb hn,
    pop_inline_bound N sb hb⟩

/-- Witness of C18: N = 8, the buffer with one inline entry of length 5, an inline slice of
length 5 (split path) and tiny_add(3). -/
theorem C18_inline_bound_witness :
    Valid buf5 ∧ InlineBound 8 buf5 ∧
    (∃ sb1, gpr_slice_buffer_add 8 buf5 (inline_slice 5 (fun i => i + 5)) = some sb1 ∧
      ∀ i, i < sb1.count → (sb1.slices i).refcount = 0 → (sb1.slices i).inlined_length ≤ 8) ∧
    (∃ r, gpr_slice_buffer_tiny_add 8 buf5 3 = some r ∧
      ∀ i, i < r.1.count → (r.1.slices i).refcount = 0 → (r.1.slices i).inlined_length ≤ 8) ∧
    (∀ i, i < (gpr_slice_buffer_pop buf5).count →
      ((gpr_slice_buffer_pop buf5).slices i).refcount = 0 →
      ((gpr_slice_buffer_pop buf5).slices i).inlined_length ≤ 8) :=
  ⟨by decide, by decide,
    C18_inline_bound 8 buf5 (inline_slice 5 (fun i => i + 5)) 3 (by decide) (by decide)
      (fun _ => by decide) (by decide)⟩

theorem add_packed (N : Nat) (sb : gpr_slice_buffer) (s : gpr_slice) (hv : Valid sb)
    (hp : Packed N sb) (hs : s.refcount = 0 ∧ s.inlined_length ≤ N) :
    ∃ sb1, gpr_slice_buffer_add N sb s = some sb1 ∧ Valid sb1 ∧ Packed N sb1 ∧
      (LenInv sb → LenInv sb1) := by
  obtain ⟨sb0, e0, hv0, _, hl0⟩ := add_preserves N sb s hv
  obtain ⟨hp1, hp2⟩ := hp
  by_cases hn : NoMerge N sb s
  · have e1 : gpr_slice_buffer_add N sb s = some
        { slices := store sb.slices sb.count s, count := sb.count + 1,
          capacity := grown_capacity sb, length := sb.length + GPR_SLICE_LENGTH s } := by
      rw [add_nomerge N sb s hn, add_indexed_valid sb s hv]; rfl
    rw [e1] at e0
    cases e0
    refine ⟨_, e1, hv0, ⟨?_, ?_⟩, hl0⟩
    · intro i hi
      by_cases hic : i = sb.count
      · subst hic
        simp only [store_same]
        exact hs
      · simp only [store_other _ _ _ _ hic]
        exact hp1 i (by simp only at hi; omega)
    · intro i hi
      have hic : i ≠ sb.count := by simp only at hi; omega
      simp only [store_other _ _ _ _ hic]
      by_cases hlast : i + 1 < sb.count
      · exact hp2 i hlast
      · have hi1 : i = sb.count - 1 := by simp only at hi; omega
        have hc : sb.count ≠ 0 := by simp only at hi; omega
        subst hi1
        have hin := hp1 (sb.count - 1) (by omega)
        rcases hn with h | h | h | h
        · exact absurd hs.1 h
        · exact absurd h hc
        · exact absurd hin.1 h
        · omega
  · unfold NoMerge at hn
    push_neg at hn
    obtain ⟨hs0, hc, hb0, ht⟩ := hn
    by_cases hfit : s.inlined_length + (sb.slices (sb.count - 1)).inlined_length ≤ N
    · have e1 := add_merge N sb s hs0 hc hb0 ht hfit
      rw [e1] at e0
      cases e0
      refine ⟨_, e1, hv0, ⟨?_, ?_⟩, hl0⟩
      · intro i hi
        by_cases hic : i = sb.count - 1
        · subst hic
          simp only [store_same]
          exact ⟨hb0, by omega⟩
        · simp only [store_other _ _ _ _ hic]
          exact hp1 i hi
      · intro i hi
        have hic : i ≠ sb.count - 1 := by simp only at hi; omega
        simp only [store_other _ _ _ _ hic]
        exact hp2 i hi
    · have e1 := add_split N sb s hv hs0 hc hb0 ht hfit
      rw [e1] at e0
      cases e0
      refine ⟨_, e1, hv0, ⟨?_, ?_⟩, hl0⟩
      · intro i hi
        by_cases hic : i = sb.count
        · subst hic
          simp only [store_same]
          exact ⟨trivial, by have := hs.2; omega⟩
        · by_cases hic1 : i = sb.count - 1
          · subst hic1
            simp only [store_other _ _ _ _ hic, store_same]
            exact ⟨hb0, le_refl N⟩
          · simp only [store_other _ _ _ _ hic, store_other _ _ _ _ hic1]
            exact hp1 i (by simp only at hi; omega)
      · intro i hi
        have hic : i ≠ sb.count := by simp only at hi; omega
        by_cases hic1 : i = sb.count - 1
        · subst hic1
          simp only [store_other _ _ _ _ hic, store_same]
        · simp only [store_other _ _ _ _ hic, store_other _ _ _ _ hic1]
          exact hp2 i (by simp only at hi; omega)

theorem addn_packed (N : Nat) (sb : gpr_slice_buffer) (ss : Nat → gpr_slice) (n : Nat)
    (hv : Valid sb) (hp : Packed N sb)
    (hs : ∀ i, i < n → (ss i).refcount = 0 ∧ (ss i).inlined_length ≤ N) :
    ∃ sb1, gpr_slice_buffer_addn N sb ss n = some sb1 ∧ Valid sb1 ∧ Packed N sb1 ∧
      (LenInv sb → LenInv sb1) := by
  induction n with
  | zero => exact ⟨sb, rfl, hv, hp, id⟩
  | succ k ih =>
    obtain ⟨sb1, h0, h1, h2, h3⟩ := ih (fun i hi => hs i (by omega))
    obtain ⟨sb2, g0, g1, g2, g3⟩ := add_packed N sb1 (ss k) h1 h2 (hs k (by omega))
    exact ⟨sb2, by simp [gpr_slice_buffer_addn, h0, g0], g1, g2, fun hl => g3 (h3 hl)⟩

theorem run_packed {W : Type} (N : Nat) (unref : gpr_slice → W → W) (ops : List Op)
    (st : gpr_slice_buffer × W) (hv : Valid st.1) (hp : Packed N st.1) (hl : LenInv st.1)
    (hops : ∀ op ∈ ops, Op.inline_add N op) :
    ∃ st1, run N unref st ops = some st1 ∧ Packed N st1.1 ∧ LenInv st1.1 := by
  induction ops generalizing st with
  | nil => exact ⟨st, rfl, hp, hl⟩
  | cons op ops ih =>
    have hop := hops op (List.mem_cons_self _ _)
    have hrest : ∀ o ∈ ops, Op.inline_add N o := fun o ho => hops o (List.mem_cons_of_mem _ ho)
    cases op with
    | add s =>
      obtain ⟨sb1, h0, h1, h2, h3⟩ := add_packed N st.1 s hv hp hop
      obtain ⟨st2, g0, g1⟩ := ih (sb1, st.2) h1 h2 (h3 hl) hrest
      exact ⟨st2, by simp [run, step, h0, g0], g1⟩
    | addn ss n =>
      obtain ⟨sb1, h0, h1, h2, h3⟩ := addn_packed N st.1 ss n hv hp hop
      obtain ⟨st2, g0, g1⟩ := ih (sb1, st.2) h1 h2 (h3 hl) hrest
      exact ⟨st2, by simp [run, step, h0, g0], g1⟩
    | add_indexed s => exact absurd hop id
    | tiny_add n => exact absurd hop id
    | pop => exact absurd hop id
    | reset_and_unref => exact absurd hop id

theorem slices_length_full (N : Nat) (f : Nat → gpr_slice) (n : Nat)
    (h : ∀ i, i < n → GPR_SLICE_LENGTH (f i) = N) : slices_length f n = n * N := by
  induction n with
  | zero => simp [slices_length]
  | succ k ih =>
    simp only [slices_length, ih (fun i hi => h i (by omega)), h k (by omega)]
    ring

theorem packed_count_bound (N : Nat) (sb : gpr_slice_buffer) (hp : Packed N sb)
    (hl : LenInv sb) (hN : 0 < N) : sb.count ≤ sb.length / N + 1 := by
  by_cases hc : sb.count = 0
  · rw [hc]
    exact Nat.zero_le _
  · obtain ⟨m, hm⟩ : ∃ m, sb.count = m + 1 := ⟨sb.count - 1, by omega⟩
    have hfull : slices_length sb.slices m = m * N := by
      apply slices_length_full
      intro i hi
      have h1 := hp.1 i (by omega)
      have h2 := hp.2 i (by omega)
      simp [GPR_SLICE_LENGTH, h1.1, h2]
    unfold LenInv at hl
    rw [hm] at hl ⊢
    simp only [slices_length, hfull] at hl
    have hm1 : m ≤ sb.length / N := (Nat.le_div_iff_mul_le hN).mpr (by omega)
    exact Nat.succ_le_succ hm1

/-- C19, merging bounds the slice count: for every buffer built from
`gpr_slice_buffer_init` using only add and addn of inline slices, each of length at most N,
the calls run without abort, every held entry is inline, every entry except the last has
length exactly N, and therefore (N being positive) count <= floor(length / N) + 1. -/
theorem C19_merge_bounds_count {W : Type} (N : Nat) (unref : gpr_slice → W → W)
    (mem : Nat → gpr_slice) (w : W) (ops : List Op)
    (hops : ∀ op ∈ ops, Op.inline_add N op) :
    ∃ st, run N unref (gpr_slice_buffer_init mem, w) ops = some st ∧
      (∀ i, i < st.1.count → (st.1.slices i).refcount = 0) ∧
      (∀ i, i + 1 < st.1.count → GPR_SLICE_LENGTH (st.1.slices i) = N) ∧
      (0 < N → st.1.count ≤ st.1.length / N + 1) := by
  have hp0 : Packed N (gpr_slice_buffer_init mem) :=
    ⟨fun i hi => absurd hi (Nat.not_lt_zero i), fun i hi => absurd hi (Nat.not_lt_zero _)⟩
  obtain ⟨st, h0, h1, h2⟩ :=
    run_packed N unref ops (gpr_slice_buffer_init mem, w) (init_valid mem) hp0 rfl hops
  refine ⟨st, h0, fun i hi => (h1.1 i hi).1, ?_, packed_count_bound N st.1 h1 h2⟩
  intro i hi
  have hin := h1.1 i (by omega)
  simp [GPR_SLICE_LENGTH, hin.1, h1.2 i hi]

/-- Witness of C19: N = 8, add of 5 bytes, add of 5 bytes, addn of slices of 8 and 3 bytes:
21 bytes in 3 entries. -/
theorem C19_merge_bounds_count_witness :
    (∀ op ∈ [Op.add (inline_slice 5 (fun i => i)), Op.add (inline_slice 5 (fun i => i)),
        Op.addn (fun i => inline_slice (8 - 5 * i) (fun j => j)) 2], Op.inline_add 8 op) ∧
    ∃ st, run 8 unref_unit (gpr_slice_buffer_init zero_mem, ())
        [Op.add (inline_slice 5 (fun i => i)), Op.add (inline_slice 5 (fun i => i)),
          Op.addn (fun i => inline_slice (8 - 5 * i) (fun j => j)) 2] = some st ∧
      (∀ i, i < st.1.count → (st.1.slices i).refcount = 0) ∧
      (∀ i, i + 1 < st.1.count → GPR_SLICE_LENGTH (st.1.slices i) = 8) ∧
      (0 < 8 → st.1.count ≤ st.1.length / 8 + 1) :=
  have hops : ∀ op ∈ [Op.add (inline_slice 5 (fun i => i)),
      Op.add (inline_slice 5 (fun i => i)),
      Op.addn (fun i => inline_slice (8 - 5 * i) (fun j => j)) 2], Op.inline_add 8 op := by
    intro op h
    simp only [List.mem_cons, List.mem_singleton, List.not_mem_nil, or_false] at h
    rcases h with rfl | rfl | rfl
    · exact ⟨rfl, by decide⟩
    · exact ⟨rfl, by decide⟩
    · intro i _
      exact ⟨rfl, Nat.sub_le 8 (5 * i)⟩
  ⟨hops, C19_merge_bounds_count 8 unref_unit zero_mem () _ hops⟩

theorem bytes_upto_memcpy_zero (d src : Nat → gpr_uint8) (k : Nat) :
    bytes_upto (memcpy d 0 src 0 k) k = bytes_upto src k := by
  have h := bytes_upto_memcpy d src 0 k
  simpa [bytes_upto] using h

theorem tiny_add_write_stream (N : Nat) (sb : gpr_slice_buffer) (n : Nat)
    (b : Nat → gpr_uint8) (hv : Valid sb) :
    ∃ r, gpr_slice_buffer_tiny_add N sb n = some r ∧
      (write_region r.1 r.2 b n).length = sb.length + n ∧
      slices_bytes (write_region r.1 r.2 b n).slices (write_region r.1 r.2 b n).count =
        slices_bytes sb.slices sb.count ++ bytes_upto b n := by
  by_cases hf : TinyFits N sb n
  · refine ⟨_, tiny_add_fits N sb n hf, rfl, ?_⟩
    obtain ⟨hc, hb, _⟩ := hf
    obtain ⟨m, hm⟩ : ∃ m, sb.count = m + 1 := ⟨sb.count - 1, by omega⟩
    simp only [write_region, hm, Nat.add_sub_cancel, store_same] at hb ⊢
    rw [slices_bytes_tail, slices_bytes_store _ _ _ _ (le_refl m)]
    simp only [slices_bytes, slice_bytes, hb, ne_eq, not_true_eq_false, if_false,
      List.append_assoc]
    rw [bytes_upto_memcpy]
  · refine ⟨_, tiny_add_fresh N sb n hv hf, rfl, ?_⟩
    simp only [write_region, store_same]
    rw [slices_bytes_tail, slices_bytes_store _ _ _ _ (le_refl sb.count)]
    simp only [slice_bytes, ne_eq, not_true_eq_false, if_false]
    rw [bytes_upto_memcpy_zero]

/-- C20, tiny_add agrees with add on the logical stream: for every buffer and every inline
slice s holding the byte string b with |b| = n <= N, tiny_add(buf, n) followed by the write of
b into the returned region, and add(buf, s), both run without abort and produce the same
cached length and the same concatenated byte stream (the stream before the call followed by
b); the two may differ in count and in the distribution of the bytes over the entries. -/
theorem C20_tiny_add_agrees_with_add (N : Nat) (sb : gpr_slice_buffer) (s : gpr_slice)
    (hv : Valid sb) (hs : s.refcount = 0) (_hn : s.inlined_length ≤ N) :
    ∃ r sb2, gpr_slice_buffer_tiny_add N sb s.inlined_length = some r ∧
      gpr_slice_buffer_add N sb s = some sb2 ∧
      (write_region r.1 r.2 s.inlined_bytes s.inlined_length).length = sb2.length ∧
      slices_bytes (write_region r.1 r.2 s.inlined_bytes s.inlined_length).slices
          (write_region r.1 r.2 s.inlined_bytes s.inlined_length).count =
        slices_bytes sb2.slices sb2.count ∧
      slices_bytes sb2.slices sb2.count =
        slices_bytes sb.slices sb.count ++ bytes_upto s.inlined_bytes s.inlined_length := by
  obtain ⟨r, h0, h1, h2⟩ :=
    tiny_add_write_stream N sb s.inlined_length s.inlined_bytes hv
  obtain ⟨sb2, g0, _, g2, g3⟩ := add_stream N sb s hv
  have hbytes : slice_bytes s = bytes_upto s.inlined_bytes s.inlined_length := by
    simp [slice_bytes, hs]
  have hlen : GPR_SLICE_LENGTH s = s.inlined_length := by simp [GPR_SLICE_LENGTH, hs]
  refine ⟨r, sb2, h0, g0, ?_, ?_, ?_⟩
  · rw [h1, g3, hlen]
  · rw [h2, g2, hbytes]
  · rw [g2, hbytes]

/-- Witness of C20: N = 8, tail (0,1,2,3,4) of length 5, byte string (5,6,7,8,9): tiny_add
creates a second entry of 5 bytes, add splits into 8 + 2, the streams agree. -/
theorem C20_tiny_add_agrees_with_add_witness :
    Valid buf5 ∧
    ∃ r sb2, gpr_slice_buffer_tiny_add 8 buf5 5 = some r ∧
      gpr_slice_buffer_add 8 buf5 (inline_slice 5 (fun i => i + 5)) = some sb2 ∧
      (write_region r.1 r.2 (fun i => i + 5) 5).length = sb2.length ∧
      slices_bytes (write_region r.1 r.2 (fun i => i + 5) 5).slices
          (write_region r.1 r.2 (fun i => i + 5) 5).count =
        slices_bytes sb2.slices sb2.count ∧
      slices_bytes sb2.slices sb2.count =
        slices_bytes buf5.slices buf5.count ++ bytes_upto (fun i => i + 5) 5 :=
  ⟨by decide,
    C20_tiny_add_agrees_with_add 8 buf5 (inline_slice 5 (fun i => i + 5)) (by decide) rfl
      (by decide)⟩

end SliceBuffer
